import Mathlib

/-!
Verification of the rsc-regexp repository: a Thompson NFA regular expression
matcher re-implemented four times (dumb-translation, safe-translation,
idiomatic-translation, rust-regex).  The shallow embedding below translates
the Rust sources into Lean: pattern bytes are natural numbers, the i32
counters of the parser are integers, state handles are natural numbers
indexing an arena list of states, and the mutable search buffers of the
matcher are threaded explicitly.
-/

set_option maxHeartbeats 4000000

set_option maxRecDepth 10000

namespace RscRegexp

/-! ## The idiomatic translation (src/idiomatic-translation/nfa.rs) -/

namespace Idiomatic

/-- Saved parser counters for one open group, from struct Paren in re2post. -/
structure Paren where
  nalt : Int
  natom : Int
deriving DecidableEq, Repr

/-- The loop body of re2post: processes the remaining pattern bytes given the
running counters nalt and natom, the stack of saved Paren frames, and the
postfix output accumulated so far.  Byte codes: 40 is the opening paren,
41 the closing paren, 42 the star, 43 the plus, 46 the dot, 63 the question
mark, 124 the pipe. -/
def re2postLoop : List Nat → Int → Int → List Paren → List Nat → Option (List Nat)
  | [], nalt, natom, paren, dst =>
    if !paren.isEmpty then none
    else if natom = 0 && nalt > 0 then none
    else
      let dst := dst ++ List.replicate (natom - 1).toNat 46
      let dst := dst ++ List.replicate nalt.toNat 124
      some dst
  | byte :: rest, nalt, natom, paren, dst =>
    if byte = 40 then
      let natomDst := if natom > 1 then (natom - 1, dst ++ [46]) else (natom, dst)
      if paren.length ≥ 100 then none
      else re2postLoop rest 0 0 (⟨nalt, natomDst.1⟩ :: paren) natomDst.2
    else if byte = 124 then
      if natom = 0 then none
      else re2postLoop rest (nalt + 1) 0 paren (dst ++ List.replicate (natom - 1).toNat 46)
    else if byte = 41 then
      match paren with
      | [] => none
      | p :: paren =>
        if natom = 0 then none
        else
          let dst := dst ++ List.replicate (natom - 1).toNat 46
          let dst := dst ++ List.replicate nalt.toNat 124
          re2postLoop rest p.nalt (p.natom + 1) paren dst
    else if byte = 42 ∨ byte = 43 ∨ byte = 63 then
      if natom = 0 then none
      else re2postLoop rest nalt natom paren (dst ++ [byte])
    else if byte = 46 then none
    else
      let natomDst := if natom > 1 then (natom - 1, dst ++ [46]) else (natom, dst)
      re2postLoop rest nalt (natomDst.1 + 1) paren (natomDst.2 ++ [byte])

/-- Translation of fn re2post: convert an infix pattern to postfix notation,
inserting 46 (the dot byte) as the explicit concatenation operator; none
models the Rust None for invalid patterns. -/
def re2post (re : List Nat) : Option (List Nat) :=
  if re.isEmpty then none
  else if re.length ≥ 8000 / 2 then none
  else re2postLoop re 0 0 [] []

/-- NFA state: matches a literal byte, splits execution, or signals a match.
Handles (out, out1, out2) are indices into the arena NFA.states; the Rust
StateID is u32, modelled as Nat (the parser limits keep the state count far
below 2 to the 32). -/
inductive State where
  | Literal (byte : Nat) (out : Nat)
  | Split (out1 : Nat) (out2 : Nat)
  | Match
deriving DecidableEq, Repr

/-- NFA: the arena of states plus the start handle. -/
structure NFA where
  start : Nat
  states : List State
deriving DecidableEq, Repr

/-- An instruction to patch a state's out or out1 handle (Out1) or its out2
handle (Out2). -/
inductive ToPatch where
  | Out1 (sid : Nat)
  | Out2 (sid : Nat)
deriving DecidableEq, Repr

/-- A partial NFA fragment: start handle plus the list of patch instructions. -/
structure Frag where
  start : Nat
  out : List ToPatch
deriving DecidableEq, Repr

/-- Translation of NFA::alloc: push the state and return its stable handle. -/
def NFA.alloc (nfa : NFA) (s : State) : NFA × Nat :=
  ({ nfa with states := nfa.states ++ [s] }, nfa.states.length)

/-- Translation of NFA::patch: perform all patch instructions so that the
patched handles point to s.  Patching a Match state or an out2 of a
non-Split state is unreachable in the Rust code and modelled as a no-op
(the build loop only ever emits valid patch instructions). -/
def NFA.patch (nfa : NFA) (l : List ToPatch) (s : Nat) : NFA :=
  l.foldl
    (fun nfa p =>
      match p with
      | .Out1 sid =>
        { nfa with
          states :=
            nfa.states.set sid
              (match nfa.states.getD sid .Match with
               | .Literal b _ => .Literal b s
               | .Split _ o2 => .Split s o2
               | .Match => .Match) }
      | .Out2 sid =>
        { nfa with
          states :=
            nfa.states.set sid
              (match nfa.states.getD sid .Match with
               | .Split o1 _ => .Split o1 s
               | st => st) })
    nfa

/-- The loop of NFA::post2nfa over the postfix tokens, carrying the arena and
the stack of fragments.  A none result models a Rust panic: a stack pop via
unwrap on an empty stack. -/
def post2nfaLoop : List Nat → NFA → List Frag → Option (NFA × List Frag)
  | [], nfa, stack => some (nfa, stack)
  | byte :: rest, nfa, stack =>
    if byte = 46 then
      match stack with
      | e2 :: e1 :: stack =>
        let nfa := nfa.patch e1.out e2.start
        post2nfaLoop rest nfa ({ start := e1.start, out := e2.out } :: stack)
      | _ => none
    else if byte = 124 then
      match stack with
      | e2 :: e1 :: stack =>
        let ns := nfa.alloc (.Split e1.start e2.start)
        post2nfaLoop rest ns.1 ({ start := ns.2, out := e1.out ++ e2.out } :: stack)
      | _ => none
    else if byte = 63 then
      match stack with
      | e :: stack =>
        let ns := nfa.alloc (.Split e.start 0)
        post2nfaLoop rest ns.1 ({ start := ns.2, out := e.out ++ [.Out2 ns.2] } :: stack)
      | _ => none
    else if byte = 42 then
      match stack with
      | e :: stack =>
        let ns := nfa.alloc (.Split e.start 0)
        let nfa := ns.1.patch e.out ns.2
        post2nfaLoop rest nfa ({ start := ns.2, out := [.Out2 ns.2] } :: stack)
      | _ => none
    else if byte = 43 then
      match stack with
      | e :: stack =>
        let ns := nfa.alloc (.Split e.start 0)
        let nfa := ns.1.patch e.out ns.2
        post2nfaLoop rest nfa ({ start := e.start, out := [.Out2 ns.2] } :: stack)
      | _ => none
    else
      let ns := nfa.alloc (.Literal byte 0)
      post2nfaLoop rest ns.1 ({ start := ns.2, out := [.Out1 ns.2] } :: stack)

/-- Outcome of NFA::post2nfa: the Rust function can panic (unwrap on an empty
fragment stack), return None (more than one fragment left), or return an NFA. -/
inductive PostResult where
  | panicked
  | failed
  | built (nfa : NFA)
deriving DecidableEq, Repr

/-- Translation of NFA::post2nfa: convert a postfix program to an NFA. -/
def post2nfa (post : List Nat) : PostResult :=
  match post2nfaLoop post { start := 0, states := [] } [] with
  | none => .panicked
  | some (nfa, stack) =>
    match stack with
    | [] => .panicked
    | e :: stack =>
      if !stack.isEmpty then .failed
      else
        let ns := nfa.alloc .Match
        let nfa := { ns.1 with start := e.start }
        let nfa := nfa.patch e.out ns.2
        .built nfa

/-- A matcher encapsulates the state of searching for a regex match: the NFA,
the current and next active-state lists (modelled by their logical contents,
the s[0..n] prefix of the Rust buffers), the current list id, and the map
from state handle to the list id it was last added under. -/
structure Matcher where
  nfa : NFA
  clist : List Nat
  nlist : List Nat
  list_id : Nat
  last_list_id : List Nat
deriving DecidableEq, Repr

/-- Translation of Matcher::new. -/
def Matcher.new (nfa : NFA) : Matcher :=
  let n := nfa.states.length
  { nfa := nfa, clist := [], nlist := [], list_id := 0,
    last_list_id := List.replicate n 0 }

/-- Translation of Matcher::increment_list_id on the (list_id, last_list_id)
pair: the checked u32 increment fails exactly at the maximal u32 value, in
which case every last-seen stamp is reset to 0 and the id restarts at 1. -/
def increment_list_id (list_id : Nat) (last : List Nat) : Nat × List Nat :=
  if list_id = 2 ^ 32 - 1 then (1, last.map fun _ => 0)
  else (list_id + 1, last)

/-- Translation of Matcher::add_state_to_next acting on the (last_list_id,
nlist) pair.  The Rust recursion has no structural measure (the state graph is
cyclic), so the embedding consumes explicit fuel; none models fuel exhaustion
and never occurs for the fuel budget used by the matcher (see the termination
theorems). -/
def add_state_to_next (nfa : NFA) :
    Nat → Nat → List Nat → List Nat → Nat → Option (List Nat × List Nat)
  | 0, _, _, _, _ => none
  | fuel + 1, list_id, last, nlist, sid =>
    if last.getD sid 0 = list_id then some (last, nlist)
    else
      let last := last.set sid list_id
      match nfa.states.getD sid .Match with
      | .Split out1 out2 =>
        match add_state_to_next nfa fuel list_id last nlist out1 with
        | none => none
        | some ln => add_state_to_next nfa fuel list_id ln.1 ln.2 out2
      | _ => some (last, nlist ++ [sid])

/-- Fuel budget used for every closure insertion: one more than the number of
NFA states, which the termination theorem shows is always sufficient. -/
def fuelFor (nfa : NFA) : Nat := nfa.states.length + 1

/-- Translation of Matcher::start: advance the generation, clear nlist, insert
the epsilon closure of the start state, and swap clist and nlist. -/
def Matcher.start (m : Matcher) : Option Matcher :=
  let il := increment_list_id m.list_id m.last_list_id
  match add_state_to_next m.nfa (fuelFor m.nfa) il.1 il.2 [] m.nfa.start with
  | none => none
  | some ln =>
    some { m with list_id := il.1, last_list_id := ln.1,
                  clist := ln.2, nlist := m.clist }

/-- Translation of Matcher::step: advance the generation, clear nlist, and for
every Literal state in clist whose byte equals the input byte insert the
epsilon closure of its out target into nlist. -/
def Matcher.step (m : Matcher) (haystack_byte : Nat) : Option Matcher :=
  let il := increment_list_id m.list_id m.last_list_id
  match
    m.clist.foldlM
      (fun (ln : List Nat × List Nat) sid =>
        match m.nfa.states.getD sid .Match with
        | .Literal byte out =>
          if byte = haystack_byte then
            add_state_to_next m.nfa (fuelFor m.nfa) il.1 ln.1 ln.2 out
          else some ln
        | _ => some ln)
      (il.2, ([] : List Nat))
  with
  | none => none
  | some ln =>
    some { m with list_id := il.1, last_list_id := ln.1, nlist := ln.2 }

/-- Whether a state is the Match state, as tested by matches in is_match. -/
def State.isMatchState : State → Bool
  | .Match => true
  | _ => false

/-- One iteration of the haystack loop of Matcher::is_match: a step followed
by the swap of clist and nlist. -/
def Matcher.stepAndSwap (m : Matcher) (byte : Nat) : Option Matcher :=
  match m.step byte with
  | none => none
  | some m' => some { m' with clist := m'.nlist, nlist := m'.clist }

/-- Translation of Matcher::is_match: run start, then step and swap for every
haystack byte, and report whether the final clist holds the Match state.  The
returned Matcher is the final value of the mutably borrowed self. -/
def Matcher.is_match (m : Matcher) (haystack : List Nat) : Option (Bool × Matcher) :=
  match m.start with
  | none => none
  | some m0 =>
    match haystack.foldlM Matcher.stepAndSwap m0 with
    | none => none
    | some mf =>
      some (mf.clist.any fun sid => (mf.nfa.states.getD sid .Match).isMatchState, mf)

/-- The full pipeline of the idiomatic translation on one pattern and one
haystack, as run by main: parse, build, then match.  none when the pattern is
rejected, construction fails, or (never, per the termination theorems) the
closure fuel runs out. -/
def matchPattern (re : List Nat) (haystack : List Nat) : Option Bool :=
  match re2post re with
  | none => none
  | some post =>
    match post2nfa post with
    | .built nfa =>
      match (Matcher.new nfa).is_match haystack with
      | some bm => some bm.1
      | none => none
    | _ => none

/-- The handle stored in a patch instruction. -/
def ToPatch.sid : ToPatch → Nat
  | .Out1 s => s
  | .Out2 s => s

/-- Whether a state is a Split state. -/
def State.isSplitState : State → Bool
  | .Split _ _ => true
  | _ => false

/-- Well-formedness of a single state with respect to an arena of n states:
every transition handle is below n. -/
def StateWF (n : Nat) : State → Prop
  | .Literal _ out => out < n
  | .Split o1 o2 => o1 < n ∧ o2 < n
  | .Match => True

/-- Well-formedness of an arena: every state only references handles below n. -/
def ArenaUnder (n : Nat) (states : List State) : Prop :=
  ∀ st ∈ states, StateWF n st

/-- Well-formedness of a fragment with respect to an arena of n states. -/
def FragWF (n : Nat) (f : Frag) : Prop :=
  f.start < n ∧ ∀ p ∈ f.out, p.sid < n

/-- Well-formedness of a complete NFA: the start handle and every transition
handle reference an existing state. -/
def NFAWF (nfa : NFA) : Prop :=
  nfa.start < nfa.states.length ∧ ArenaUnder nfa.states.length nfa.states

/-- The number of last-seen entries that differ from the current list id: the
states not yet stamped in this generation, which bounds the closure recursion. -/
def countNe (list_id : Nat) (last : List Nat) : Nat :=
  last.countP fun e => e != list_id

/-- Invariant of an active list under construction: no duplicate handles, all
members stamped with the current generation, no Split state stored, and all
handles within the arena. -/
def GoodList (nfa : NFA) (list_id : Nat) (last nlist : List Nat) : Prop :=
  nlist.Nodup ∧ (∀ sid ∈ nlist, last.getD sid 0 = list_id) ∧
  (∀ sid ∈ nlist, (nfa.states.getD sid .Match).isSplitState = false) ∧
  (∀ sid ∈ nlist, sid < nfa.states.length)

/-- Structural invariant of a matcher threaded through a match attempt: the
arena is well-formed, the last-seen table is sized to the arena, and clist
holds only valid handles. -/
def MState (m : Matcher) : Prop :=
  ArenaUnder m.nfa.states.length m.nfa.states ∧
  m.last_list_id.length = m.nfa.states.length ∧
  (∀ sid ∈ m.clist, sid < m.nfa.states.length)

/-- Generation invariant of a matcher between operations: every last-seen
stamp is at most the current list id, and the list id fits in u32. -/
def MatcherInv (m : Matcher) : Prop :=
  (∀ i, m.last_list_id.getD i 0 ≤ m.list_id) ∧ m.list_id ≤ 2 ^ 32 - 1

/-- Two (list id, last-seen table) pairs stamp the same states: used to show
that match results do not depend on how the generation counter got where it
is, in particular not on the exhaustion-and-reset boundary. -/
def StampEquiv (id1 : Nat) (l1 : List Nat) (id2 : Nat) (l2 : List Nat) : Prop :=
  l1.length = l2.length ∧ ∀ i, (l1.getD i 0 = id1 ↔ l2.getD i 0 = id2)

/-- Relation between the outcomes of two closure insertions running over
stamp-equivalent tables: they fail together, and on success produce the same
active list and stamp-equivalent tables. -/
def InsRel (id1 id2 : Nat) :
    Option (List Nat × List Nat) → Option (List Nat × List Nat) → Prop
  | none, none => True
  | some r1, some r2 => r1.2 = r2.2 ∧ StampEquiv id1 r1.1 id2 r2.1
  | _, _ => False

/-- Relation between two matcher states that behave identically on every
haystack: same automaton, same current list, same-sized tables, and both
generation invariants hold. -/
def SimRel (m1 m2 : Matcher) : Prop :=
  m1.nfa = m2.nfa ∧ m1.clist = m2.clist ∧
  m1.last_list_id.length = m2.last_list_id.length ∧
  MatcherInv m1 ∧ MatcherInv m2

end Idiomatic

/-! ## Grouping nesting depth of a pattern (spec-side notion for claim C2) -/

/-- Running computation of the grouping nesting depth: cur is the number of
currently open groups, m the maximum reached so far. -/
def nestDepthAux : List Nat → Nat → Nat → Nat
  | [], _, m => m
  | b :: rest, cur, m =>
    if b = 40 then nestDepthAux rest (cur + 1) (max m (cur + 1))
    else if b = 41 then nestDepthAux rest (cur - 1) m
    else nestDepthAux rest cur m

/-- The grouping nesting depth of a pattern: the maximal number of
simultaneously open groups at any point while scanning it. -/
def nestDepth (re : List Nat) : Nat := nestDepthAux re 0 0

/-- A pattern of k nested groups around the literal byte 97. -/
def deepPat (k : Nat) : List Nat :=
  List.replicate k 40 ++ [97] ++ List.replicate k 41

/-- The rejection set asserted by claim C2: the empty pattern, the patterns
a-pipe, (a-pipe), a-pipe-pipe-b, lone open paren, lone close paren, any
pattern containing the dot byte 46, any pattern of length at least 4000, and
any pattern of grouping nesting depth at least 100. -/
def c2ClaimedReject (re : List Nat) : Prop :=
  re = [] ∨ re = [97, 124] ∨ re = [40, 97, 124, 41] ∨ re = [97, 124, 124, 98] ∨
  re = [40] ∨ re = [41] ∨ 46 ∈ re ∨ 4000 ≤ re.length ∨ 100 ≤ nestDepth re

namespace Idiomatic

/-- Whether a byte is one of the seven bytes that the parser treats specially. -/
def isMeta (b : Nat) : Prop :=
  b = 40 ∨ b = 41 ∨ b = 42 ∨ b = 43 ∨ b = 46 ∨ b = 63 ∨ b = 124

instance : DecidablePred isMeta := fun _ => by unfold isMeta; infer_instance

/-- Whether a postfix byte is one of the five postfix operator bytes. -/
def isPostOp (b : Nat) : Prop :=
  b = 46 ∨ b = 124 ∨ b = 63 ∨ b = 42 ∨ b = 43

instance : DecidablePred isPostOp := fun _ => by unfold isPostOp; infer_instance

/-- The fragment-stack size simulation of the Builder (spec-side): starting
from k fragments, process the postfix tokens, popping two and pushing one for
each binary operator, requiring one for each unary operator, and pushing one
for each literal; none means an operator found too few fragments. -/
def stackCountFrom : Nat → List Nat → Option Nat
  | k, [] => some k
  | k, b :: rest =>
    if b = 46 ∨ b = 124 then
      match k with
      | t + 2 => stackCountFrom (t + 1) rest
      | _ => none
    else if b = 63 ∨ b = 42 ∨ b = 43 then
      match k with
      | 0 => none
      | t + 1 => stackCountFrom (t + 1) rest
    else stackCountFrom (k + 1) rest

end Idiomatic

/-! ## The safe translation (src/safe-translation/nfa.rs) -/

namespace Safe

/-- The i32 wraparound reduction: the representative of an integer as a
two's-complement 32-bit signed value. -/
def wrap32 (n : Int) : Int := (n + 2 ^ 31) % 2 ^ 32 - 2 ^ 31

/-- The LIST_ID.fetch_add(1, ..) update of the safe translation: AtomicI32
arithmetic silently wraps around on overflow. -/
def list_id_incr (id : Int) : Int := wrap32 (id + 1)

/-- The loop body of the safe translation's re2post.  The function is
textually identical to the idiomatic translation's re2post (both files copy
the same parser), so the embedding repeats the same definition, reusing the
Paren record. -/
def re2postLoop : List Nat → Int → Int → List Idiomatic.Paren → List Nat → Option (List Nat)
  | [], nalt, natom, paren, dst =>
    if !paren.isEmpty then none
    else if natom = 0 && nalt > 0 then none
    else
      let dst := dst ++ List.replicate (natom - 1).toNat 46
      let dst := dst ++ List.replicate nalt.toNat 124
      some dst
  | byte :: rest, nalt, natom, paren, dst =>
    if byte = 40 then
      let natomDst := if natom > 1 then (natom - 1, dst ++ [46]) else (natom, dst)
      if paren.length ≥ 100 then none
      else re2postLoop rest 0 0 (⟨nalt, natomDst.1⟩ :: paren) natomDst.2
    else if byte = 124 then
      if natom = 0 then none
      else re2postLoop rest (nalt + 1) 0 paren (dst ++ List.replicate (natom - 1).toNat 46)
    else if byte = 41 then
      match paren with
      | [] => none
      | p :: paren =>
        if natom = 0 then none
        else
          let dst := dst ++ List.replicate (natom - 1).toNat 46
          let dst := dst ++ List.replicate nalt.toNat 124
          re2postLoop rest p.nalt (p.natom + 1) paren dst
    else if byte = 42 ∨ byte = 43 ∨ byte = 63 then
      if natom = 0 then none
      else re2postLoop rest nalt natom paren (dst ++ [byte])
    else if byte = 46 then none
    else
      let natomDst := if natom > 1 then (natom - 1, dst ++ [46]) else (natom, dst)
      re2postLoop rest nalt (natomDst.1 + 1) paren (natomDst.2 ++ [byte])

/-- The safe translation's fn re2post. -/
def re2post (re : List Nat) : Option (List Nat) :=
  if re.isEmpty then none
  else if re.length ≥ 8000 / 2 then none
  else re2postLoop re 0 0 [] []

/-- A state of the safe translation: struct State with its class c (a byte
value, 256 for MATCH, 257 for SPLIT) and its out and out1 pointers.  The
Rc pointers are modelled as indices into the arena of states in allocation
order (State::new call order); None is a null Option pointer.  The
interior-mutable Cell lastlist of each state is the mutable part of the
search and is modelled separately as a table of stamps indexed by the same
arena. -/
structure State where
  c : Int
  out : Option Nat
  out1 : Option Nat
deriving DecidableEq, Repr

/-- One cell of the safe translation's PtrList: the parent state to patch
together with the tag saying whether its out or its out1 field is the one to
set.  The PtrList linked list itself is modelled as a Lean list of these
cells; PtrList::append is list append, keeping the order of l1 then l2. -/
inductive PtrEntry where
  | out (parent : Nat)
  | out1 (parent : Nat)
deriving DecidableEq, Repr

/-- A fragment of the safe translation: struct Frag, the start state plus the
list of dangling pointers to patch. -/
structure Frag where
  start : Nat
  out : List PtrEntry
deriving DecidableEq, Repr

/-- PtrList::patch: walk the list and set each recorded parent's out or out1
field to s. -/
def patch (arena : List State) (l : List PtrEntry) (s : Nat) : List State :=
  l.foldl
    (fun arena p =>
      match p with
      | .out sid =>
        arena.set sid { arena.getD sid ⟨0, none, none⟩ with out := some s }
      | .out1 sid =>
        arena.set sid { arena.getD sid ⟨0, none, none⟩ with out1 := some s })
    arena

/-- The loop of the safe translation's post2nfa over the postfix tokens,
carrying the arena (states in State::new order) and the stack of fragments;
none models a Rust panic from unwrap on an empty fragment stack. -/
def post2nfaLoop : List Nat → List State → List Frag → Option (List State × List Frag)
  | [], arena, stack => some (arena, stack)
  | p :: rest, arena, stack =>
    if p = 46 then
      match stack with
      | e2 :: e1 :: stack =>
        let arena := patch arena e1.out e2.start
        post2nfaLoop rest arena (⟨e1.start, e2.out⟩ :: stack)
      | _ => none
    else if p = 124 then
      match stack with
      | e2 :: e1 :: stack =>
        let sid := arena.length
        let arena := arena ++ [⟨257, some e1.start, some e2.start⟩]
        post2nfaLoop rest arena (⟨sid, e1.out ++ e2.out⟩ :: stack)
      | _ => none
    else if p = 63 then
      match stack with
      | e :: stack =>
        let sid := arena.length
        let arena := arena ++ [⟨257, some e.start, none⟩]
        post2nfaLoop rest arena (⟨sid, e.out ++ [.out1 sid]⟩ :: stack)
      | _ => none
    else if p = 42 then
      match stack with
      | e :: stack =>
        let sid := arena.length
        let arena := arena ++ [⟨257, some e.start, none⟩]
        let arena := patch arena e.out sid
        post2nfaLoop rest arena (⟨sid, [.out1 sid]⟩ :: stack)
      | _ => none
    else if p = 43 then
      match stack with
      | e :: stack =>
        let sid := arena.length
        let arena := arena ++ [⟨257, some e.start, none⟩]
        let arena := patch arena e.out sid
        post2nfaLoop rest arena (⟨e.start, [.out1 sid]⟩ :: stack)
      | _ => none
    else
      let sid := arena.length
      let arena := arena ++ [⟨(p : Int), none, none⟩]
      post2nfaLoop rest arena (⟨sid, [.out sid]⟩ :: stack)

/-- Outcome of the safe translation's post2nfa: a panic from an unwrap on an
empty stack, None when more than one fragment remains, or the start state
together with the final arena. -/
inductive SPost where
  | panicked
  | failed
  | built (start : Nat) (states : List State)
deriving DecidableEq, Repr

/-- The safe translation's post2nfa: run the loop, pop the final fragment,
reject leftovers, then allocate the MATCH state and patch the fragment's
dangling pointers to it. -/
def post2nfa (post : List Nat) : SPost :=
  match post2nfaLoop post [] [] with
  | none => .panicked
  | some (arena, stack) =>
    match stack with
    | [] => .panicked
    | e :: stack =>
      if !stack.isEmpty then .failed
      else
        let sid := arena.length
        let arena := arena ++ [⟨256, none, none⟩]
        let arena := patch arena e.out sid
        .built e.start arena

/-- List::add_state of the safe translation, acting on the (lastlist stamp
table, list contents) pair: skip a null pointer, skip a state already stamped
with the current LIST_ID, otherwise stamp it and either follow both arrows of
a SPLIT state or append the state to the list.  The write into the pre-sized
buffer s[n] together with the n increment is modelled by appending to the
list of live entries.  The Rust recursion runs on a cyclic graph, so the
embedding consumes explicit fuel; none models fuel exhaustion. -/
def add_state (states : List State) :
    Nat → Int → List Int → List Nat → Option Nat → Option (List Int × List Nat)
  | _, _, stamps, l, none => some (stamps, l)
  | 0, _, _, _, some _ => none
  | fuel + 1, list_id, stamps, l, some sid =>
    if stamps.getD sid 0 = list_id then some (stamps, l)
    else
      let stamps := stamps.set sid list_id
      let st := states.getD sid ⟨0, none, none⟩
      if st.c = 257 then
        match add_state states fuel list_id stamps l st.out with
        | none => none
        | some sl => add_state states fuel list_id sl.1 sl.2 st.out1
      else some (stamps, l ++ [sid])

/-- fn step of the safe translation, after the LIST_ID increment: for every
state of clist whose class equals the input character, add the state behind
its out arrow to the next list. -/
def step (states : List State) (fuel : Nat) (list_id : Int) (stamps : List Int)
    (clist : List Nat) (c : Int) : Option (List Int × List Nat) :=
  clist.foldlM
    (fun (sl : List Int × List Nat) sid =>
      let st := states.getD sid ⟨0, none, none⟩
      if st.c = c then add_state states fuel list_id sl.1 sl.2 st.out
      else some sl)
    (stamps, ([] : List Nat))

/-- List::is_match of the safe translation: whether some state of the list
has class MATCH. -/
def is_match (states : List State) (l : List Nat) : Bool :=
  l.any fun sid => (states.getD sid ⟨0, none, none⟩).c = 256

/-- One iteration of the haystack loop of fn match: the LIST_ID increment,
the step of clist past the byte, and the swap of clist with nlist, acting on
the (list id, stamp table, clist) triple. -/
def stepOnce (states : List State) (st : Int × List Int × List Nat)
    (byte : Nat) : Option (Int × List Int × List Nat) :=
  let id := list_id_incr st.1
  match step states (states.length + 1) id st.2.1 st.2.2 (byte : Int) with
  | none => none
  | some sl => some (id, sl.1, sl.2)

/-- fn match of the safe translation, from a given value of the global
LIST_ID counter and a given table of lastlist stamps (both persist across
calls): List::start increments LIST_ID and inserts the closure of the start
state, then every haystack byte steps clist past it with another increment
and the lists swap.  Returns the match result together with the final counter
and stamp table; none only on closure fuel exhaustion. -/
def rmatch (start : Nat) (states : List State) (list_id : Int)
    (stamps : List Int) (hay : List Nat) : Option (Bool × Int × List Int) :=
  let id1 := list_id_incr list_id
  match add_state states (states.length + 1) id1 stamps [] (some start) with
  | none => none
  | some sl =>
    match hay.foldlM (stepOnce states) (id1, sl.1, sl.2) with
    | none => none
    | some fin => some (is_match states fin.2.2, fin.1, fin.2.1)

/-- The full pipeline of the safe translation on one pattern and one haystack
as run by main on a fresh process: parse, build, then match with LIST_ID at 0
and every lastlist cell at its initial 0. -/
def matchPattern (re : List Nat) (haystack : List Nat) : Option Bool :=
  match re2post re with
  | none => none
  | some post =>
    match post2nfa post with
    | .built start states =>
      match rmatch start states 0 (List.replicate states.length 0) haystack with
      | some r => some r.1
      | none => none
    | _ => none

end Safe

/-! ## The dumb translation (src/dumb-translation/nfa.rs): its re2post -/

namespace DumbT

/-- The loop body of the dumb translation's re2post, textually identical to
the idiomatic translation's. -/
def re2postLoop : List Nat → Int → Int → List Idiomatic.Paren → List Nat → Option (List Nat)
  | [], nalt, natom, paren, dst =>
    if !paren.isEmpty then none
    else if natom = 0 && nalt > 0 then none
    else
      let dst := dst ++ List.replicate (natom - 1).toNat 46
      let dst := dst ++ List.replicate nalt.toNat 124
      some dst
  | byte :: rest, nalt, natom, paren, dst =>
    if byte = 40 then
      let natomDst := if natom > 1 then (natom - 1, dst ++ [46]) else (natom, dst)
      if paren.length ≥ 100 then none
      else re2postLoop rest 0 0 (⟨nalt, natomDst.1⟩ :: paren) natomDst.2
    else if byte = 124 then
      if natom = 0 then none
      else re2postLoop rest (nalt + 1) 0 paren (dst ++ List.replicate (natom - 1).toNat 46)
    else if byte = 41 then
      match paren with
      | [] => none
      | p :: paren =>
        if natom = 0 then none
        else
          let dst := dst ++ List.replicate (natom - 1).toNat 46
          let dst := dst ++ List.replicate nalt.toNat 124
          re2postLoop rest p.nalt (p.natom + 1) paren dst
    else if byte = 42 ∨ byte = 43 ∨ byte = 63 then
      if natom = 0 then none
      else re2postLoop rest nalt natom paren (dst ++ [byte])
    else if byte = 46 then none
    else
      let natomDst := if natom > 1 then (natom - 1, dst ++ [46]) else (natom, dst)
      re2postLoop rest nalt (natomDst.1 + 1) paren (natomDst.2 ++ [byte])

/-- The dumb translation's fn re2post. -/
def re2post (re : List Nat) : Option (List Nat) :=
  if re.isEmpty then none
  else if re.length ≥ 8000 / 2 then none
  else re2postLoop re 0 0 [] []

end DumbT

/-! ## The rust-regex program (src/rust-regex/nfa.rs): its re2post -/

namespace RustRegex

/-- The loop body of the rust-regex program's re2post, textually identical to
the idiomatic translation's. -/
def re2postLoop : List Nat → Int → Int → List Idiomatic.Paren → List Nat → Option (List Nat)
  | [], nalt, natom, paren, dst =>
    if !paren.isEmpty then none
    else if natom = 0 && nalt > 0 then none
    else
      let dst := dst ++ List.replicate (natom - 1).toNat 46
      let dst := dst ++ List.replicate nalt.toNat 124
      some dst
  | byte :: rest, nalt, natom, paren, dst =>
    if byte = 40 then
      let natomDst := if natom > 1 then (natom - 1, dst ++ [46]) else (natom, dst)
      if paren.length ≥ 100 then none
      else re2postLoop rest 0 0 (⟨nalt, natomDst.1⟩ :: paren) natomDst.2
    else if byte = 124 then
      if natom = 0 then none
      else re2postLoop rest (nalt + 1) 0 paren (dst ++ List.replicate (natom - 1).toNat 46)
    else if byte = 41 then
      match paren with
      | [] => none
      | p :: paren =>
        if natom = 0 then none
        else
          let dst := dst ++ List.replicate (natom - 1).toNat 46
          let dst := dst ++ List.replicate nalt.toNat 124
          re2postLoop rest p.nalt (p.natom + 1) paren dst
    else if byte = 42 ∨ byte = 43 ∨ byte = 63 then
      if natom = 0 then none
      else re2postLoop rest nalt natom paren (dst ++ [byte])
    else if byte = 46 then none
    else
      let natomDst := if natom > 1 then (natom - 1, dst ++ [46]) else (natom, dst)
      re2postLoop rest nalt (natomDst.1 + 1) paren (natomDst.2 ++ [byte])

/-- The rust-regex program's fn re2post, copied there from the translations
so that all four programs reject the same patterns. -/
def re2post (re : List Nat) : Option (List Nat) :=
  if re.isEmpty then none
  else if re.length ≥ 8000 / 2 then none
  else re2postLoop re 0 0 [] []

end RustRegex

namespace Idiomatic

/-- Unfolding equation of the conversion loop at an open paren. -/
theorem re2postLoop_lparen (rest : List Nat) (nalt natom : Int)
    (paren : List Paren) (dst : List Nat) :
    re2postLoop (40 :: rest) nalt natom paren dst =
      if paren.length ≥ 100 then none
      else if natom > 1 then
        re2postLoop rest 0 0 (⟨nalt, natom - 1⟩ :: paren) (dst ++ [46])
      else re2postLoop rest 0 0 (⟨nalt, natom⟩ :: paren) dst := by
  simp only [re2postLoop]
  by_cases hp : paren.length ≥ 100 <;> by_cases hn : natom > 1 <;> simp [hp, hn]

/-- Unfolding equation of the conversion loop at a pipe. -/
theorem re2postLoop_pipe (rest : List Nat) (nalt natom : Int)
    (paren : List Paren) (dst : List Nat) :
    re2postLoop (124 :: rest) nalt natom paren dst =
      if natom = 0 then none
      else re2postLoop rest (nalt + 1) 0 paren
        (dst ++ List.replicate (natom - 1).toNat 46) := rfl

/-- Unfolding equation of the conversion loop at a close paren with no open
group. -/
theorem re2postLoop_rparen_nil (rest : List Nat) (nalt natom : Int)
    (dst : List Nat) :
    re2postLoop (41 :: rest) nalt natom [] dst = none := rfl

/-- Unfolding equation of the conversion loop at a close paren with an open
group. -/
theorem re2postLoop_rparen_cons (rest : List Nat) (nalt natom : Int)
    (p : Paren) (ps : List Paren) (dst : List Nat) :
    re2postLoop (41 :: rest) nalt natom (p :: ps) dst =
      if natom = 0 then none
      else re2postLoop rest p.nalt (p.natom + 1) ps
        (dst ++ List.replicate (natom - 1).toNat 46 ++
          List.replicate nalt.toNat 124) := rfl

/-- Unfolding equation of the conversion loop at a star. -/
theorem re2postLoop_star (rest : List Nat) (nalt natom : Int)
    (paren : List Paren) (dst : List Nat) :
    re2postLoop (42 :: rest) nalt natom paren dst =
      if natom = 0 then none
      else re2postLoop rest nalt natom paren (dst ++ [42]) := rfl

/-- Unfolding equation of the conversion loop at a plus. -/
theorem re2postLoop_plus (rest : List Nat) (nalt natom : Int)
    (paren : List Paren) (dst : List Nat) :
    re2postLoop (43 :: rest) nalt natom paren dst =
      if natom = 0 then none
      else re2postLoop rest nalt natom paren (dst ++ [43]) := rfl

/-- Unfolding equation of the conversion loop at a question mark. -/
theorem re2postLoop_quest (rest : List Nat) (nalt natom : Int)
    (paren : List Paren) (dst : List Nat) :
    re2postLoop (63 :: rest) nalt natom paren dst =
      if natom = 0 then none
      else re2postLoop rest nalt natom paren (dst ++ [63]) := rfl

/-- Unfolding equation of the conversion loop at the dot byte: rejected. -/
theorem re2postLoop_dotbyte (rest : List Nat) (nalt natom : Int)
    (paren : List Paren) (dst : List Nat) :
    re2postLoop (46 :: rest) nalt natom paren dst = none := rfl

/-- Unfolding equation of the conversion loop at a literal byte. -/
theorem re2postLoop_lit (b : Nat) (hb : ¬ isMeta b) (rest : List Nat)
    (nalt natom : Int) (paren : List Paren) (dst : List Nat) :
    re2postLoop (b :: rest) nalt natom paren dst =
      if natom > 1 then
        re2postLoop rest nalt ((natom - 1) + 1) paren (dst ++ [46] ++ [b])
      else re2postLoop rest nalt (natom + 1) paren (dst ++ [b]) := by
  unfold isMeta at hb
  push_neg at hb
  obtain ⟨h40, h41, h42, h43, h46, h63, h124⟩ := hb
  simp only [re2postLoop, if_neg h40, if_neg h124, if_neg h41,
    if_neg (by tauto : ¬ (b = 42 ∨ b = 43 ∨ b = 63)), if_neg h46]
  by_cases hn : natom > 1 <;> simp [hn, List.append_assoc]

/-- A pattern containing the dot byte makes the conversion loop fail from any
intermediate parser state. -/
theorem re2postLoop_dot (input : List Nat) :
    ∀ nalt natom paren dst, 46 ∈ input →
      re2postLoop input nalt natom paren dst = none := by
  induction input with
  | nil => intro _ _ _ _ h; cases h
  | cons b rest ih =>
    intro nalt natom paren dst h
    by_cases h46 : b = 46
    · subst h46; exact re2postLoop_dotbyte rest nalt natom paren dst
    · have hmem : 46 ∈ rest := by
        rcases List.mem_cons.mp h with h' | h'
        · exact absurd h'.symm h46
        · exact h'
      by_cases h40 : b = 40
      · subst h40
        rw [re2postLoop_lparen]
        split
        · rfl
        · split <;> exact ih _ _ _ _ hmem
      · by_cases h124 : b = 124
        · subst h124
          rw [re2postLoop_pipe]
          split
          · rfl
          · exact ih _ _ _ _ hmem
        · by_cases h41 : b = 41
          · subst h41
            cases paren with
            | nil => exact re2postLoop_rparen_nil rest nalt natom dst
            | cons p ps =>
              rw [re2postLoop_rparen_cons]
              split
              · rfl
              · exact ih _ _ _ _ hmem
          · by_cases h42 : b = 42
            · subst h42
              rw [re2postLoop_star]
              split
              · rfl
              · exact ih _ _ _ _ hmem
            · by_cases h43 : b = 43
              · subst h43
                rw [re2postLoop_plus]
                split
                · rfl
                · exact ih _ _ _ _ hmem
              · by_cases h63 : b = 63
                · subst h63
                  rw [re2postLoop_quest]
                  split
                  · rfl
                  · exact ih _ _ _ _ hmem
                · rw [re2postLoop_lit b (by unfold isMeta; tauto)]
                  split <;> exact ih _ _ _ _ hmem

/-- A pattern whose remaining input drives the open-group count past 100 makes
the conversion loop fail: the saved-frame stack tracks the open-group count
exactly, and the push at the offending open paren is refused. -/
theorem re2postLoop_deep (input : List Nat) :
    ∀ (m : Nat) (paren : List Paren) nalt natom dst, m ≤ 100 →
      101 ≤ nestDepthAux input paren.length m →
      re2postLoop input nalt natom paren dst = none := by
  induction input with
  | nil =>
    intro m paren nalt natom dst hm hd
    simp only [nestDepthAux] at hd
    omega
  | cons b rest ih =>
    intro m paren nalt natom dst hm hd
    by_cases h40 : b = 40
    · subst h40
      simp only [nestDepthAux, if_pos rfl] at hd
      rw [re2postLoop_lparen]
      split
      · rfl
      · rename_i hlt
        have hlen : paren.length + 1 ≤ 100 := by omega
        have hm' : max m (paren.length + 1) ≤ 100 := by omega
        split
        · exact ih _ (_ :: paren) _ _ _ hm' (by simpa using hd)
        · exact ih _ (_ :: paren) _ _ _ hm' (by simpa using hd)
    · by_cases h41 : b = 41
      · subst h41
        simp only [nestDepthAux, if_neg (by decide : ¬ (41 : Nat) = 40),
          if_pos rfl] at hd
        cases paren with
        | nil => exact re2postLoop_rparen_nil rest nalt natom dst
        | cons p ps =>
          rw [re2postLoop_rparen_cons]
          split
          · rfl
          · exact ih m ps _ _ _ hm (by simpa using hd)
      · have hd' : 101 ≤ nestDepthAux rest paren.length m := by
          simpa [nestDepthAux, h40, h41] using hd
        by_cases h124 : b = 124
        · subst h124
          rw [re2postLoop_pipe]
          split
          · rfl
          · exact ih m paren _ _ _ hm hd'
        · by_cases h42 : b = 42
          · subst h42
            rw [re2postLoop_star]
            split
            · rfl
            · exact ih m paren _ _ _ hm hd'
          · by_cases h43 : b = 43
            · subst h43
              rw [re2postLoop_plus]
              split
              · rfl
              · exact ih m paren _ _ _ hm hd'
            · by_cases h63 : b = 63
              · subst h63
                rw [re2postLoop_quest]
                split
                · rfl
                · exact ih m paren _ _ _ hm hd'
              · by_cases h46 : b = 46
                · subst h46
                  exact re2postLoop_dotbyte rest nalt natom paren dst
                · rw [re2postLoop_lit b (by unfold isMeta; tauto)]
                  split <;> exact ih m paren _ _ _ hm hd'

/-- Rejection of every pattern containing the dot byte. -/
theorem re2post_dot (re : List Nat) (h : 46 ∈ re) : re2post re = none := by
  unfold re2post
  by_cases he : re.isEmpty
  · rw [if_pos he]
  · rw [if_neg he]
    by_cases hl : re.length ≥ 8000 / 2
    · rw [if_pos hl]
    · rw [if_neg hl]
      exact re2postLoop_dot re 0 0 [] [] h

/-- Rejection of every pattern of length at least 4000. -/
theorem re2post_long (re : List Nat) (h : 4000 ≤ re.length) : re2post re = none := by
  unfold re2post
  by_cases he : re.isEmpty
  · rw [if_pos he]
  · rw [if_neg he, if_pos (show re.length ≥ 8000 / 2 by omega)]

/-- Rejection of every pattern of grouping nesting depth at least 101. -/
theorem re2post_deep (re : List Nat) (h : 101 ≤ nestDepth re) : re2post re = none := by
  unfold re2post
  by_cases he : re.isEmpty
  · rw [if_pos he]
  · rw [if_neg he]
    by_cases hl : re.length ≥ 8000 / 2
    · rw [if_pos hl]
    · rw [if_neg hl]
      exact re2postLoop_deep re 0 [] 0 0 [] (by omega) h

/-- C2 counterexample: the claim "re2post rejects exactly the listed inputs"
fails in both directions.  The pattern consisting of the single star byte is
rejected by re2post but lies outside the claimed rejection set, and the
pattern of grouping nesting depth exactly 100 lies inside the claimed
rejection set (depth at least 100) but is accepted. -/
theorem c2_counterexample :
    (re2post [42] = none ∧ ¬ c2ClaimedReject [42]) ∧
    (c2ClaimedReject (deepPat 100) ∧ re2post (deepPat 100) ≠ none) := by
  refine ⟨⟨by decide, ?_⟩, ⟨?_, by decide⟩⟩
  · unfold c2ClaimedReject
    decide
  · unfold c2ClaimedReject
    right; right; right; right; right; right; right; right
    decide

/-- C2 amended: all inputs listed by the claim are rejected, with the nesting
bound corrected to depth at least 101 (depth exactly 100 is accepted, as the
deepPat 100 conjunct shows); the converse direction of the claim is dropped,
since re2post also rejects further patterns such as the lone star byte. -/
theorem c2_amended :
    re2post [] = none ∧ re2post [97, 124] = none ∧
    re2post [40, 97, 124, 41] = none ∧ re2post [97, 124, 124, 98] = none ∧
    re2post [40] = none ∧ re2post [41] = none ∧
    (∀ re, 46 ∈ re → re2post re = none) ∧
    (∀ re, 4000 ≤ re.length → re2post re = none) ∧
    (∀ re, 101 ≤ nestDepth re → re2post re = none) ∧
    re2post (deepPat 100) ≠ none :=
 by
  refine ⟨?_, ?_, ?_, ?_, ?_, ?_, re2post_dot, re2post_long, re2post_deep, ?_⟩ <;>
    decide

/-- C2 witness: the universally quantified conjuncts of the amended theorem
applied at concrete inputs: a pattern containing the dot byte, a pattern of
length 4000, and a pattern of grouping nesting depth 101. -/
theorem c2_amended_witness :
    (46 ∈ [97, 46] ∧ re2post [97, 46] = none) ∧
    (4000 ≤ (List.replicate 4000 97).length ∧
      re2post (List.replicate 4000 97) = none) ∧
    (101 ≤ nestDepth (deepPat 101) ∧ re2post (deepPat 101) = none) :=
  ⟨⟨by decide, c2_amended.2.2.2.2.2.2.1 [97, 46] (by decide)⟩,
   ⟨by rw [List.length_replicate],
    c2_amended.2.2.2.2.2.2.2.1 (List.replicate 4000 97)
      (by rw [List.length_replicate])⟩,
   ⟨by decide, c2_amended.2.2.2.2.2.2.2.2.1 (deepPat 101) (by decide)⟩⟩

/-- Unfolding equation of the build loop: concatenation with two fragments. -/
theorem post2nfaLoop_cat (rest : List Nat) (nfa : NFA) (e2 e1 : Frag)
    (stack : List Frag) :
    post2nfaLoop (46 :: rest) nfa (e2 :: e1 :: stack) =
      post2nfaLoop rest (nfa.patch e1.out e2.start)
        ({ start := e1.start, out := e2.out } :: stack) := rfl

/-- Unfolding equation of the build loop: concatenation with an empty stack. -/
theorem post2nfaLoop_cat_zero (rest : List Nat) (nfa : NFA) :
    post2nfaLoop (46 :: rest) nfa [] = none := rfl

/-- Unfolding equation of the build loop: concatenation with one fragment. -/
theorem post2nfaLoop_cat_one (rest : List Nat) (nfa : NFA) (e : Frag) :
    post2nfaLoop (46 :: rest) nfa [e] = none := rfl

/-- Unfolding equation of the build loop: alternation with two fragments. -/
theorem post2nfaLoop_alt (rest : List Nat) (nfa : NFA) (e2 e1 : Frag)
    (stack : List Frag) :
    post2nfaLoop (124 :: rest) nfa (e2 :: e1 :: stack) =
      post2nfaLoop rest (nfa.alloc (.Split e1.start e2.start)).1
        ({ start := (nfa.alloc (.Split e1.start e2.start)).2,
           out := e1.out ++ e2.out } :: stack) := rfl

/-- Unfolding equation of the build loop: alternation with an empty stack. -/
theorem post2nfaLoop_alt_zero (rest : List Nat) (nfa : NFA) :
    post2nfaLoop (124 :: rest) nfa [] = none := rfl

/-- Unfolding equation of the build loop: alternation with one fragment. -/
theorem post2nfaLoop_alt_one (rest : List Nat) (nfa : NFA) (e : Frag) :
    post2nfaLoop (124 :: rest) nfa [e] = none := rfl

/-- Unfolding equation of the build loop: zero-or-one with a fragment. -/
theorem post2nfaLoop_quest (rest : List Nat) (nfa : NFA) (e : Frag)
    (stack : List Frag) :
    post2nfaLoop (63 :: rest) nfa (e :: stack) =
      post2nfaLoop rest (nfa.alloc (.Split e.start 0)).1
        ({ start := (nfa.alloc (.Split e.start 0)).2,
           out := e.out ++ [.Out2 (nfa.alloc (.Split e.start 0)).2] } :: stack) := rfl

/-- Unfolding equation of the build loop: zero-or-one with an empty stack. -/
theorem post2nfaLoop_quest_zero (rest : List Nat) (nfa : NFA) :
    post2nfaLoop (63 :: rest) nfa [] = none := rfl

/-- Unfolding equation of the build loop: zero-or-more with a fragment. -/
theorem post2nfaLoop_star (rest : List Nat) (nfa : NFA) (e : Frag)
    (stack : List Frag) :
    post2nfaLoop (42 :: rest) nfa (e :: stack) =
      post2nfaLoop rest
        ((nfa.alloc (.Split e.start 0)).1.patch e.out (nfa.alloc (.Split e.start 0)).2)
        ({ start := (nfa.alloc (.Split e.start 0)).2,
           out := [.Out2 (nfa.alloc (.Split e.start 0)).2] } :: stack) := rfl

/-- Unfolding equation of the build loop: zero-or-more with an empty stack. -/
theorem post2nfaLoop_star_zero (rest : List Nat) (nfa : NFA) :
    post2nfaLoop (42 :: rest) nfa [] = none := rfl

/-- Unfolding equation of the build loop: one-or-more with a fragment. -/
theorem post2nfaLoop_plus (rest : List Nat) (nfa : NFA) (e : Frag)
    (stack : List Frag) :
    post2nfaLoop (43 :: rest) nfa (e :: stack) =
      post2nfaLoop rest
        ((nfa.alloc (.Split e.start 0)).1.patch e.out (nfa.alloc (.Split e.start 0)).2)
        ({ start := e.start,
           out := [.Out2 (nfa.alloc (.Split e.start 0)).2] } :: stack) := rfl

/-- Unfolding equation of the build loop: one-or-more with an empty stack. -/
theorem post2nfaLoop_plus_zero (rest : List Nat) (nfa : NFA) :
    post2nfaLoop (43 :: rest) nfa [] = none := rfl

/-- Unfolding equation of the build loop: a literal byte. -/
theorem post2nfaLoop_lit (b : Nat) (hb : ¬ isPostOp b) (rest : List Nat)
    (nfa : NFA) (stack : List Frag) :
    post2nfaLoop (b :: rest) nfa stack =
      post2nfaLoop rest (nfa.alloc (.Literal b 0)).1
        ({ start := (nfa.alloc (.Literal b 0)).2,
           out := [.Out1 (nfa.alloc (.Literal b 0)).2] } :: stack) := by
  unfold isPostOp at hb
  push_neg at hb
  obtain ⟨h46, h124, h63, h42, h43⟩ := hb
  simp only [post2nfaLoop, if_neg h46, if_neg h124, if_neg h63, if_neg h42, if_neg h43]

/-- The build loop pops on unwrap exactly when the size simulation underflows,
and otherwise leaves exactly the simulated number of fragments. -/
theorem post2nfaLoop_count (post : List Nat) : ∀ (nfa : NFA) (stack : List Frag),
    (stackCountFrom stack.length post = none → post2nfaLoop post nfa stack = none) ∧
    (∀ k, stackCountFrom stack.length post = some k →
      ∃ nfa' stack', post2nfaLoop post nfa stack = some (nfa', stack') ∧
        stack'.length = k) := by
  induction post with
  | nil =>
    intro nfa stack
    constructor
    · intro h
      simp [stackCountFrom] at h
    · intro k hk
      exact ⟨nfa, stack, rfl, Option.some.inj hk⟩
  | cons b rest ih =>
    intro nfa stack
    by_cases hbin : b = 46 ∨ b = 124
    · match stack with
      | [] =>
        refine ⟨fun _ => ?_, fun k hk => ?_⟩
        · rcases hbin with h | h <;> subst h
          · exact post2nfaLoop_cat_zero rest nfa
          · exact post2nfaLoop_alt_zero rest nfa
        · exact absurd hk (by simp [stackCountFrom, hbin])
      | [e] =>
        refine ⟨fun _ => ?_, fun k hk => ?_⟩
        · rcases hbin with h | h <;> subst h
          · exact post2nfaLoop_cat_one rest nfa e
          · exact post2nfaLoop_alt_one rest nfa e
        · exact absurd hk (by simp [stackCountFrom, hbin])
      | e2 :: e1 :: stack =>
        have hsc : stackCountFrom (e2 :: e1 :: stack).length (b :: rest) =
            stackCountFrom (stack.length + 1) rest := by
          simp [stackCountFrom, hbin]
        rcases hbin with h | h <;> subst h
        · rw [post2nfaLoop_cat]
          have := ih (nfa.patch e1.out e2.start)
            ({ start := e1.start, out := e2.out } :: stack)
          simpa [hsc] using this
        · rw [post2nfaLoop_alt]
          have := ih (nfa.alloc (.Split e1.start e2.start)).1
            ({ start := (nfa.alloc (.Split e1.start e2.start)).2,
               out := e1.out ++ e2.out } :: stack)
          simpa [hsc] using this
    · by_cases huna : b = 63 ∨ b = 42 ∨ b = 43
      · match stack with
        | [] =>
          refine ⟨fun _ => ?_, fun k hk => ?_⟩
          · rcases huna with h | h | h <;> subst h
            · exact post2nfaLoop_quest_zero rest nfa
            · exact post2nfaLoop_star_zero rest nfa
            · exact post2nfaLoop_plus_zero rest nfa
          · exact absurd hk (by simp [stackCountFrom, hbin, huna])
        | e :: stack =>
          have hsc : stackCountFrom (e :: stack).length (b :: rest) =
              stackCountFrom (stack.length + 1) rest := by
            simp [stackCountFrom, hbin, huna]
          rcases huna with h | h | h <;> subst h
          · rw [post2nfaLoop_quest]
            have := ih (nfa.alloc (.Split e.start 0)).1
              ({ start := (nfa.alloc (.Split e.start 0)).2,
                 out := e.out ++ [.Out2 (nfa.alloc (.Split e.start 0)).2] } :: stack)
            simpa [hsc] using this
          · rw [post2nfaLoop_star]
            have := ih
              ((nfa.alloc (.Split e.start 0)).1.patch e.out (nfa.alloc (.Split e.start 0)).2)
              ({ start := (nfa.alloc (.Split e.start 0)).2,
                 out := [.Out2 (nfa.alloc (.Split e.start 0)).2] } :: stack)
            simpa [hsc] using this
          · rw [post2nfaLoop_plus]
            have := ih
              ((nfa.alloc (.Split e.start 0)).1.patch e.out (nfa.alloc (.Split e.start 0)).2)
              ({ start := e.start,
                 out := [.Out2 (nfa.alloc (.Split e.start 0)).2] } :: stack)
            simpa [hsc] using this
      · have hsc : stackCountFrom stack.length (b :: rest) =
            stackCountFrom (stack.length + 1) rest := by
          simp [stackCountFrom, hbin, huna]
        rw [post2nfaLoop_lit b (by unfold isPostOp; tauto)]
        have := ih (nfa.alloc (.Literal b 0)).1
          ({ start := (nfa.alloc (.Literal b 0)).2,
             out := [.Out1 (nfa.alloc (.Literal b 0)).2] } :: stack)
        simpa [hsc] using this

/-- C3 counterexample: on the postfix sequence consisting of the single
concatenation token, the Builder finds too few fragments for the operator,
and the Rust code panics on unwrap instead of returning the construction
error None. -/
theorem c3_counterexample :
    post2nfa [46] = .panicked ∧ post2nfa [46] ≠ .failed := by
  constructor <;> decide

/-- C3 amended: for every postfix sequence (of length below 2 to the 32, so
that state allocation stays within the u32 handle type), the Builder returns
the construction error exactly when no operator underflows the fragment stack
and at least two fragments remain at the end; it fully succeeds with an
automaton exactly when no operator underflows and exactly one fragment
remains; and it panics, rather than returning the error, exactly when an
operator underflows the stack or the sequence leaves zero fragments.  There
is no other outcome and no partial result. -/
theorem c3_amended (post : List Nat) (_h32 : post.length < 2 ^ 32) :
    (post2nfa post = .failed ↔ (∃ k, stackCountFrom 0 post = some (k + 2))) ∧
    ((∃ nfa, post2nfa post = .built nfa) ↔ stackCountFrom 0 post = some 1) ∧
    (post2nfa post = .panicked ↔
      (stackCountFrom 0 post = none ∨ stackCountFrom 0 post = some 0)) := by
  have h := post2nfaLoop_count post { start := 0, states := [] } []
  simp only [List.length_nil] at h
  unfold post2nfa
  rcases hsc : stackCountFrom 0 post with _ | k
  · rw [h.1 hsc]
    refine ⟨by simp, by simp, by simp⟩
  · obtain ⟨nfa', stack', hloop, hlen'⟩ := h.2 k hsc
    rw [hloop]
    match stack', hlen' with
    | [], hlen' =>
      subst hlen'
      refine ⟨by simp, by simp, by simp⟩
    | [e], hlen' =>
      subst hlen'
      refine ⟨by simp, ⟨fun _ => rfl, fun _ => ⟨_, rfl⟩⟩, by simp⟩
    | e :: e' :: stack'', hlen' =>
      subst hlen'
      refine ⟨⟨fun _ => ⟨stack''.length, rfl⟩, fun _ => by simp⟩,
        ⟨fun hex => ?_, fun hsome => by simp at hsome⟩, by simp⟩
      obtain ⟨nfa'', hnfa⟩ := hex
      simp at hnfa

/-- C3 witness: the amended theorem applied to the two-literal postfix
sequence, which leaves two fragments and yields the construction error. -/
theorem c3_amended_witness :
    [(97 : Nat), 97].length < 2 ^ 32 ∧ post2nfa [97, 97] = .failed :=
  ⟨by norm_num, (c3_amended [97, 97] (by norm_num)).1.mpr ⟨0, by decide⟩⟩

/-- C4: concrete full-string matching scenarios from the specification, run
through the complete pipeline (converter, builder, matcher), plus the fact
that the empty haystack matches exactly when the epsilon closure of the start
state contains the Match state (the clist right after Matcher.start). -/
theorem c4_scenarios :
    matchPattern [97, 98, 99] [97, 98, 99] = some true ∧
    matchPattern [97, 98, 99] [97, 98] = some false ∧
    matchPattern [97, 124, 98] [97] = some true ∧
    matchPattern [97, 124, 98] [98] = some true ∧
    matchPattern [97, 124, 98] [97, 98] = some false ∧
    matchPattern [97, 124, 98] [] = some false ∧
    matchPattern [97, 42] [] = some true ∧
    matchPattern [97, 42] [97, 97, 97, 97] = some true ∧
    matchPattern [97, 42] [98] = some false ∧
    matchPattern [97, 43] [97] = some true ∧
    matchPattern [97, 43] [] = some false ∧
    matchPattern [40, 97, 98, 41, 43] [97, 98, 97, 98, 97, 98] = some true ∧
    matchPattern [40, 97, 98, 41, 43] [97, 98, 97] = some false ∧
    matchPattern [97, 63, 98] [98] = some true ∧
    matchPattern [97, 63, 98] [97, 98] = some true ∧
    matchPattern [97, 63, 98] [97, 97, 98] = some false ∧
    (∀ m : Matcher, m.is_match [] =
      (m.start).map fun m0 =>
        (m0.clist.any fun sid => (m0.nfa.states.getD sid .Match).isMatchState, m0)) := by
  refine ⟨?_, ?_, ?_, ?_, ?_, ?_, ?_, ?_, ?_, ?_, ?_, ?_, ?_, ?_, ?_, ?_, ?_⟩ <;>
    first
    | decide
    | · intro m
        unfold Matcher.is_match
        cases m.start <;> simp [List.foldlM]

/-- Reading a set position within bounds yields the written value. -/
theorem getD_set_self {α : Type} : ∀ (l : List α) (i : Nat) (v d : α),
    i < l.length → (l.set i v).getD i d = v
  | [], i, _, _, h => absurd h (by simp)
  | _ :: _, 0, _, _, _ => rfl
  | _ :: t, i + 1, v, d, h =>
    getD_set_self t i v d (by simpa using h)

/-- Reading a position other than the set one is unchanged. -/
theorem getD_set_ne {α : Type} : ∀ (l : List α) (i j : Nat) (v d : α),
    i ≠ j → (l.set i v).getD j d = l.getD j d
  | [], _, _, _, _, _ => rfl
  | _ :: _, 0, 0, _, _, h => absurd rfl h
  | _ :: _, 0, _ + 1, _, _, _ => rfl
  | _ :: _, _ + 1, 0, _, _, _ => rfl
  | _ :: t, i + 1, j + 1, v, d, h =>
    getD_set_ne t i j v d (fun he => h (by omega))

/-- A getD read is a member of the list or the default. -/
theorem getD_mem_or_default {α : Type} : ∀ (l : List α) (i : Nat) (d : α),
    l.getD i d ∈ l ∨ l.getD i d = d
  | [], _, _ => Or.inr rfl
  | a :: _, 0, _ => Or.inl (List.mem_cons_self a _)
  | _ :: t, i + 1, d => by
    rcases getD_mem_or_default t i d with h | h
    · exact Or.inl (List.mem_cons_of_mem _ h)
    · exact Or.inr h

/-- States are monotone in the arena bound. -/
theorem stateWF_mono {n n' : Nat} (h : n ≤ n') {st : State} (hw : StateWF n st) :
    StateWF n' st := by
  cases st <;> simp only [StateWF] at hw ⊢ <;> omega

/-- Fragments are monotone in the arena bound. -/
theorem fragWF_mono {n n' : Nat} (h : n ≤ n') {f : Frag} (hw : FragWF n f) :
    FragWF n' f :=
  ⟨lt_of_lt_of_le hw.1 h, fun p hp => lt_of_lt_of_le (hw.2 p hp) h⟩

/-- Patching the empty list is the identity. -/
theorem patch_nil (nfa : NFA) (s : Nat) : nfa.patch [] s = nfa := rfl

/-- Patching unfolds one Out1 instruction. -/
theorem patch_cons_out1 (nfa : NFA) (sid : Nat) (l : List ToPatch) (s : Nat) :
    nfa.patch (.Out1 sid :: l) s =
      NFA.patch
        { nfa with
          states :=
            nfa.states.set sid
              (match nfa.states.getD sid .Match with
               | .Literal b _ => .Literal b s
               | .Split _ o2 => .Split s o2
               | .Match => .Match) } l s := rfl

/-- Patching unfolds one Out2 instruction. -/
theorem patch_cons_out2 (nfa : NFA) (sid : Nat) (l : List ToPatch) (s : Nat) :
    nfa.patch (.Out2 sid :: l) s =
      NFA.patch
        { nfa with
          states :=
            nfa.states.set sid
              (match nfa.states.getD sid .Match with
               | .Split o1 _ => .Split o1 s
               | st => st) } l s := rfl

/-- Patching never changes the number of states. -/
theorem patch_states_length (l : List ToPatch) : ∀ (nfa : NFA) (s : Nat),
    (nfa.patch l s).states.length = nfa.states.length := by
  induction l with
  | nil => intro nfa s; rfl
  | cons p l ih =>
    intro nfa s
    cases p with
    | Out1 sid => rw [patch_cons_out1, ih]; simp
    | Out2 sid => rw [patch_cons_out2, ih]; simp

/-- Patching never changes the start handle. -/
theorem patch_start (l : List ToPatch) : ∀ (nfa : NFA) (s : Nat),
    (nfa.patch l s).start = nfa.start := by
  induction l with
  | nil => intro nfa s; rfl
  | cons p l ih =>
    intro nfa s
    cases p with
    | Out1 sid => rw [patch_cons_out1, ih]
    | Out2 sid => rw [patch_cons_out2, ih]

/-- Patching to a valid target preserves arena well-formedness. -/
theorem patch_arena (l : List ToPatch) : ∀ (nfa : NFA) (s n : Nat),
    ArenaUnder n nfa.states → s < n →
    ArenaUnder n (nfa.patch l s).states := by
  induction l with
  | nil => intro nfa s n ha _; exact ha
  | cons p l ih =>
    intro nfa s n ha hs
    have hset : ∀ (sid : Nat) (v : State), StateWF n v →
        ArenaUnder n (nfa.states.set sid v) := by
      intro sid v hv st hst
      rcases List.mem_or_eq_of_mem_set hst with h | h
      · exact ha st h
      · exact h ▸ hv
    cases p with
    | Out1 sid =>
      rw [patch_cons_out1]
      refine ih _ s n ?_ hs
      rcases hst : nfa.states.getD sid .Match with _ | _ | _
      · rename_i b o
        exact hset sid _ hs
      · rename_i o1 o2
        have hmem : (State.Split o1 o2) ∈ nfa.states := by
          rcases getD_mem_or_default nfa.states sid .Match with h | h
          · exact hst ▸ h
          · rw [hst] at h; cases h
        have := ha _ hmem
        exact hset sid _ (by exact ⟨hs, this.2⟩)
      · exact hset sid _ trivial
    | Out2 sid =>
      rw [patch_cons_out2]
      refine ih _ s n ?_ hs
      rcases hst : nfa.states.getD sid .Match with _ | _ | _
      · rename_i b o
        have hmem : (State.Literal b o) ∈ nfa.states := by
          rcases getD_mem_or_default nfa.states sid .Match with h | h
          · exact hst ▸ h
          · rw [hst] at h; cases h
        exact hset sid _ (ha _ hmem)
      · rename_i o1 o2
        have hmem : (State.Split o1 o2) ∈ nfa.states := by
          rcases getD_mem_or_default nfa.states sid .Match with h | h
          · exact hst ▸ h
          · rw [hst] at h; cases h
        have := ha _ hmem
        exact hset sid _ ⟨this.1, hs⟩
      · exact hset sid _ trivial

/-- The build loop preserves well-formedness of the arena and the fragment
stack, and only grows the arena. -/
theorem post2nfaLoop_wf (post : List Nat) : ∀ (nfa : NFA) (stack : List Frag)
    (nfa' : NFA) (stack' : List Frag),
    post2nfaLoop post nfa stack = some (nfa', stack') →
    ArenaUnder nfa.states.length nfa.states →
    (∀ f ∈ stack, FragWF nfa.states.length f) →
    ArenaUnder nfa'.states.length nfa'.states ∧
    (∀ f ∈ stack', FragWF nfa'.states.length f) ∧
    nfa.states.length ≤ nfa'.states.length := by
  induction post with
  | nil =>
    intro nfa stack nfa' stack' h ha hs
    obtain ⟨rfl, rfl⟩ : nfa = nfa' ∧ stack = stack' := by
      simpa [post2nfaLoop] using h
    exact ⟨ha, hs, le_refl _⟩
  | cons b rest ih =>
    intro nfa stack nfa' stack' h ha hs
    by_cases h46 : b = 46
    · subst h46
      match stack with
      | [] => rw [post2nfaLoop_cat_zero] at h; cases h
      | [e] => rw [post2nfaLoop_cat_one] at h; cases h
      | e2 :: e1 :: stack =>
        rw [post2nfaLoop_cat] at h
        have he1 := hs e1 (by simp)
        have he2 := hs e2 (by simp)
        have hlen := patch_states_length e1.out nfa e2.start
        have ha' : ArenaUnder (nfa.patch e1.out e2.start).states.length
            (nfa.patch e1.out e2.start).states := by
          rw [hlen]; exact patch_arena e1.out nfa e2.start _ ha he2.1
        have hs' : ∀ f ∈ ({ start := e1.start, out := e2.out } : Frag) :: stack,
            FragWF (nfa.patch e1.out e2.start).states.length f := by
          rw [hlen]
          intro f hf
          rcases List.mem_cons.mp hf with rfl | hf
          · exact ⟨he1.1, he2.2⟩
          · exact hs f (by simp [hf])
        have := ih _ _ _ _ h ha' hs'
        exact ⟨this.1, this.2.1, by rw [hlen] at this; exact this.2.2⟩
    · by_cases h124 : b = 124
      · subst h124
        match stack with
        | [] => rw [post2nfaLoop_alt_zero] at h; cases h
        | [e] => rw [post2nfaLoop_alt_one] at h; cases h
        | e2 :: e1 :: stack =>
          rw [post2nfaLoop_alt] at h
          have he1 := hs e1 (by simp)
          have he2 := hs e2 (by simp)
          set nfa1 := (nfa.alloc (.Split e1.start e2.start)).1 with hnfa1
          have hlen : nfa1.states.length = nfa.states.length + 1 := by
            simp [hnfa1, NFA.alloc]
          have ha' : ArenaUnder nfa1.states.length nfa1.states := by
            rw [hlen]
            intro st hst
            rcases List.mem_append.mp hst with h' | h'
            · exact stateWF_mono (by omega) (ha st h')
            · rcases List.mem_singleton.mp h' with rfl
              exact ⟨by have := he1.1; omega, by have := he2.1; omega⟩
          have hs' : ∀ f ∈ Frag.mk (nfa.alloc (.Split e1.start e2.start)).2
                (e1.out ++ e2.out) :: stack,
              FragWF nfa1.states.length f := by
            rw [hlen]
            intro f hf
            rcases List.mem_cons.mp hf with rfl | hf
            · refine ⟨by simp [NFA.alloc], ?_⟩
              intro p hp
              rcases List.mem_append.mp hp with h' | h'
              · have := he1.2 p h'; omega
              · have := he2.2 p h'; omega
            · exact fragWF_mono (by omega) (hs f (by simp [hf]))
          have := ih _ _ _ _ h ha' hs'
          exact ⟨this.1, this.2.1, by rw [hlen] at this; omega⟩
      · by_cases h63 : b = 63
        · subst h63
          match stack with
          | [] => rw [post2nfaLoop_quest_zero] at h; cases h
          | e :: stack =>
            rw [post2nfaLoop_quest] at h
            have he := hs e (by simp)
            set nfa1 := (nfa.alloc (.Split e.start 0)).1 with hnfa1
            have hlen : nfa1.states.length = nfa.states.length + 1 := by
              simp [hnfa1, NFA.alloc]
            have ha' : ArenaUnder nfa1.states.length nfa1.states := by
              rw [hlen]
              intro st hst
              rcases List.mem_append.mp hst with h' | h'
              · exact stateWF_mono (by omega) (ha st h')
              · rcases List.mem_singleton.mp h' with rfl
                exact ⟨by have := he.1; omega, by omega⟩
            have hs' : ∀ f ∈ Frag.mk (nfa.alloc (.Split e.start 0)).2
                  (e.out ++ [.Out2 (nfa.alloc (.Split e.start 0)).2]) :: stack,
                FragWF nfa1.states.length f := by
              rw [hlen]
              intro f hf
              rcases List.mem_cons.mp hf with rfl | hf
              · refine ⟨by simp [NFA.alloc], ?_⟩
                intro p hp
                rcases List.mem_append.mp hp with h' | h'
                · have := he.2 p h'; omega
                · rcases List.mem_singleton.mp h' with rfl
                  simp [ToPatch.sid, NFA.alloc]
              · exact fragWF_mono (by omega) (hs f (by simp [hf]))
            have := ih _ _ _ _ h ha' hs'
            exact ⟨this.1, this.2.1, by rw [hlen] at this; omega⟩
        · by_cases h42 : b = 42
          · subst h42
            match stack with
            | [] => rw [post2nfaLoop_star_zero] at h; cases h
            | e :: stack =>
              rw [post2nfaLoop_star] at h
              have he := hs e (by simp)
              set nfa1 := (nfa.alloc (.Split e.start 0)).1 with hnfa1
              have hlen1 : nfa1.states.length = nfa.states.length + 1 := by
                simp [hnfa1, NFA.alloc]
              set nfa2 := nfa1.patch e.out (nfa.alloc (.Split e.start 0)).2 with hnfa2
              have hlen2 : nfa2.states.length = nfa.states.length + 1 := by
                rw [hnfa2, patch_states_length, hlen1]
              have ha1 : ArenaUnder nfa1.states.length nfa1.states := by
                rw [hlen1]
                intro st hst
                rcases List.mem_append.mp hst with h' | h'
                · exact stateWF_mono (by omega) (ha st h')
                · rcases List.mem_singleton.mp h' with rfl
                  exact ⟨by have := he.1; omega, by omega⟩
              have ha2 : ArenaUnder nfa2.states.length nfa2.states := by
                rw [hlen2]
                refine patch_arena e.out nfa1 _ _ (by rw [← hlen1]; exact ha1) ?_
                simp [NFA.alloc]
              have hs' : ∀ f ∈ Frag.mk (nfa.alloc (.Split e.start 0)).2
                    [.Out2 (nfa.alloc (.Split e.start 0)).2] :: stack,
                  FragWF nfa2.states.length f := by
                rw [hlen2]
                intro f hf
                rcases List.mem_cons.mp hf with rfl | hf
                · refine ⟨by simp [NFA.alloc], ?_⟩
                  intro p hp
                  rcases List.mem_singleton.mp hp with rfl
                  simp [ToPatch.sid, NFA.alloc]
                · exact fragWF_mono (by omega) (hs f (by simp [hf]))
              have := ih _ _ _ _ h ha2 hs'
              exact ⟨this.1, this.2.1, by rw [hlen2] at this; omega⟩
          · by_cases h43 : b = 43
            · subst h43
              match stack with
              | [] => rw [post2nfaLoop_plus_zero] at h; cases h
              | e :: stack =>
                rw [post2nfaLoop_plus] at h
                have he := hs e (by simp)
                set nfa1 := (nfa.alloc (.Split e.start 0)).1 with hnfa1
                have hlen1 : nfa1.states.length = nfa.states.length + 1 := by
                  simp [hnfa1, NFA.alloc]
                set nfa2 := nfa1.patch e.out (nfa.alloc (.Split e.start 0)).2 with hnfa2
                have hlen2 : nfa2.states.length = nfa.states.length + 1 := by
                  rw [hnfa2, patch_states_length, hlen1]
                have ha1 : ArenaUnder nfa1.states.length nfa1.states := by
                  rw [hlen1]
                  intro st hst
                  rcases List.mem_append.mp hst with h' | h'
                  · exact stateWF_mono (by omega) (ha st h')
                  · rcases List.mem_singleton.mp h' with rfl
                    exact ⟨by have := he.1; omega, by omega⟩
                have ha2 : ArenaUnder nfa2.states.length nfa2.states := by
                  rw [hlen2]
                  refine patch_arena e.out nfa1 _ _ (by rw [← hlen1]; exact ha1) ?_
                  simp [NFA.alloc]
                have hs' : ∀ f ∈ Frag.mk e.start
                      [.Out2 (nfa.alloc (.Split e.start 0)).2] :: stack,
                    FragWF nfa2.states.length f := by
                  rw [hlen2]
                  intro f hf
                  rcases List.mem_cons.mp hf with rfl | hf
                  · refine ⟨show e.start < nfa.states.length + 1 by
                      have := he.1; omega, ?_⟩
                    intro p hp
                    rcases List.mem_singleton.mp hp with rfl
                    simp [ToPatch.sid, NFA.alloc]
                  · exact fragWF_mono (by omega) (hs f (by simp [hf]))
                have := ih _ _ _ _ h ha2 hs'
                exact ⟨this.1, this.2.1, by rw [hlen2] at this; omega⟩
            · rw [post2nfaLoop_lit b (by unfold isPostOp; tauto)] at h
              set nfa1 := (nfa.alloc (.Literal b 0)).1 with hnfa1
              have hlen : nfa1.states.length = nfa.states.length + 1 := by
                simp [hnfa1, NFA.alloc]
              have ha' : ArenaUnder nfa1.states.length nfa1.states := by
                rw [hlen]
                intro st hst
                rcases List.mem_append.mp hst with h' | h'
                · exact stateWF_mono (by omega) (ha st h')
                · rcases List.mem_singleton.mp h' with rfl
                  simp [StateWF]
              have hs' : ∀ f ∈ Frag.mk (nfa.alloc (.Literal b 0)).2
                    [.Out1 (nfa.alloc (.Literal b 0)).2] :: stack,
                  FragWF nfa1.states.length f := by
                rw [hlen]
                intro f hf
                rcases List.mem_cons.mp hf with rfl | hf
                · refine ⟨by simp [NFA.alloc], ?_⟩
                  intro p hp
                  rcases List.mem_singleton.mp hp with rfl
                  simp [ToPatch.sid, NFA.alloc]
                · exact fragWF_mono (by omega) (hs f (by simp [hf]))
              have := ih _ _ _ _ h ha' hs'
              exact ⟨this.1, this.2.1, by rw [hlen] at this; omega⟩

/-- Every automaton returned by the Builder is well-formed: its start handle
and every transition handle reference an existing state. -/
theorem post2nfa_wf (post : List Nat) (nfa : NFA)
    (h : post2nfa post = .built nfa) : NFAWF nfa := by
  unfold post2nfa at h
  rcases hloop : post2nfaLoop post { start := 0, states := [] } [] with _ | ⟨nfa1, stack1⟩
  · rw [hloop] at h; cases h
  · rw [hloop] at h
    cases stack1 with
    | nil => exact PostResult.noConfusion h
    | cons e stack2 =>
      cases stack2 with
      | cons e' stack3 => exact PostResult.noConfusion h
      | nil =>
        have hwf := post2nfaLoop_wf post _ _ _ _ hloop
          (by intro st hst; cases hst) (by intro f hf; cases hf)
        injection h with h
        subst h
        have he := hwf.2.1 e (by simp)
        have hl : (nfa1.alloc State.Match).1.states.length = nfa1.states.length + 1 := by
          simp [NFA.alloc]
        constructor
        · rw [patch_start, patch_states_length]
          show e.start < (nfa1.alloc State.Match).1.states.length
          have := he.1
          omega
        · rw [patch_states_length]
          apply patch_arena
          · show ArenaUnder (nfa1.alloc State.Match).1.states.length
              (nfa1.alloc State.Match).1.states
            rw [hl]
            intro st hst
            rcases List.mem_append.mp hst with h' | h'
            · exact stateWF_mono (by omega) (hwf.1 st h')
            · rcases List.mem_singleton.mp h' with rfl
              trivial
          · show (nfa1.alloc State.Match).2 < (nfa1.alloc State.Match).1.states.length
            rw [hl]
            simp [NFA.alloc]

/-- Unfolding equation of add_state_to_next for positive fuel. -/
theorem add_state_to_next_succ (nfa : NFA) (fuel list_id : Nat) (last nlist : List Nat)
    (sid : Nat) :
    add_state_to_next nfa (fuel + 1) list_id last nlist sid =
      if last.getD sid 0 = list_id then some (last, nlist)
      else
        match nfa.states.getD sid .Match with
        | .Split out1 out2 =>
          match add_state_to_next nfa fuel list_id (last.set sid list_id) nlist out1 with
          | none => none
          | some ln => add_state_to_next nfa fuel list_id ln.1 ln.2 out2
        | _ => some (last.set sid list_id, nlist ++ [sid]) := by
  rw [add_state_to_next]

/-- Insertion only writes the current list id into the last-seen table: the
table keeps its length, every entry is unchanged or newly stamped, existing
stamps survive, and the produced list extends the given one. -/
theorem add_state_stamps (nfa : NFA) : ∀ (fuel list_id : Nat) (last nlist : List Nat)
    (sid : Nat) (ln : List Nat × List Nat),
    add_state_to_next nfa fuel list_id last nlist sid = some ln →
    ln.1.length = last.length ∧
    (∀ i, ln.1.getD i 0 = last.getD i 0 ∨ ln.1.getD i 0 = list_id) ∧
    (∀ i, last.getD i 0 = list_id → ln.1.getD i 0 = list_id) ∧
    (∃ add, ln.2 = nlist ++ add) := by
  intro fuel
  induction fuel with
  | zero => intro list_id last nlist sid ln h; cases h
  | succ fuel ih =>
    intro list_id last nlist sid ln h
    rw [add_state_to_next_succ] at h
    by_cases hst : last.getD sid 0 = list_id
    · rw [if_pos hst] at h
      injection h with h
      subst h
      exact ⟨rfl, fun i => Or.inl rfl, fun i hi => hi, [], by simp⟩
    · rw [if_neg hst] at h
      have hset : ∀ i, (last.set sid list_id).getD i 0 = last.getD i 0 ∨
          (last.set sid list_id).getD i 0 = list_id := by
        intro i
        by_cases hi : sid = i
        · subst hi
          by_cases hlt : sid < last.length
          · rw [getD_set_self last sid list_id 0 hlt]; exact Or.inr rfl
          · rw [List.set_eq_of_length_le (by omega)]; exact Or.inl rfl
        · rw [getD_set_ne last sid i list_id 0 hi]; exact Or.inl rfl
      have hkeep : ∀ i, last.getD i 0 = list_id →
          (last.set sid list_id).getD i 0 = list_id := by
        intro i hi
        by_cases hie : sid = i
        · subst hie; exact absurd hi hst
        · rw [getD_set_ne last sid i list_id 0 hie]; exact hi
      rcases hgs : nfa.states.getD sid .Match with _ | _ | _
      · rw [hgs] at h
        injection h with h
        subst h
        refine ⟨by simp, hset, hkeep, [sid], rfl⟩
      · rename_i out1 out2
        rw [hgs] at h
        replace h : (match add_state_to_next nfa fuel list_id (last.set sid list_id)
              nlist out1 with
            | none => (none : Option (List Nat × List Nat))
            | some ln1 => add_state_to_next nfa fuel list_id ln1.1 ln1.2 out2) =
            some ln := h
        rcases h1 : add_state_to_next nfa fuel list_id (last.set sid list_id) nlist out1
          with _ | ln1
        · rw [h1] at h
          exact Option.noConfusion h
        · rw [h1] at h
          have r1 := ih list_id (last.set sid list_id) nlist out1 ln1 h1
          have r2 := ih list_id ln1.1 ln1.2 out2 ln h
          refine ⟨by rw [r2.1, r1.1]; simp, ?_, ?_, ?_⟩
          · intro i
            rcases r2.2.1 i with h2 | h2
            · rw [h2]
              rcases r1.2.1 i with h3 | h3
              · rw [h3]; exact hset i
              · exact Or.inr h3
            · exact Or.inr h2
          · intro i hi
            exact r2.2.2.1 i (r1.2.2.1 i (hkeep i hi))
          · obtain ⟨a1, ha1⟩ := r1.2.2.2
            obtain ⟨a2, ha2⟩ := r2.2.2.2
            exact ⟨a1 ++ a2, by rw [ha2, ha1, List.append_assoc]⟩
      · rw [hgs] at h
        injection h with h
        subst h
        refine ⟨by simp, hset, hkeep, [sid], rfl⟩

/-- Pointwise stamping only lowers the number of unstamped entries. -/
theorem countNe_mono (list_id : Nat) : ∀ (l1 l2 : List Nat),
    l1.length = l2.length →
    (∀ i, l2.getD i 0 = l1.getD i 0 ∨ l2.getD i 0 = list_id) →
    countNe list_id l2 ≤ countNe list_id l1 := by
  intro l1
  induction l1 with
  | nil =>
    intro l2 hlen _
    rw [List.length_nil] at hlen
    rw [List.eq_nil_of_length_eq_zero hlen.symm]
  | cons a t1 ih =>
    intro l2 hlen hpt
    cases l2 with
    | nil => simp at hlen
    | cons b t2 =>
      have hhead := hpt 0
      simp only [List.getD_cons_zero] at hhead
      have htail : ∀ i, t2.getD i 0 = t1.getD i 0 ∨ t2.getD i 0 = list_id := fun i => by
        have := hpt (i + 1)
        simpa only [List.getD_cons_succ] using this
      have hih := ih t2 (by simpa using hlen) htail
      simp only [countNe, List.countP_cons] at hih ⊢
      rcases hhead with heq | heq
      · rw [heq]
        omega
      · rw [heq]
        have h1 : (if (list_id != list_id) = true then 1 else 0) = 0 := by simp
        omega

/-- Stamping one unstamped in-range entry decreases the unstamped count by
exactly one. -/
theorem countNe_set (list_id : Nat) : ∀ (l : List Nat) (sid : Nat),
    sid < l.length → l.getD sid 0 ≠ list_id →
    countNe list_id (l.set sid list_id) + 1 = countNe list_id l := by
  intro l
  induction l with
  | nil => intro sid h _; simp at h
  | cons a t ih =>
    intro sid hlt hne
    cases sid with
    | zero =>
      simp only [List.getD_cons_zero] at hne
      simp only [List.set_cons_zero, countNe, List.countP_cons]
      have h1 : (if (list_id != list_id) = true then 1 else 0) = 0 := by simp
      have h2 : (if (a != list_id) = true then 1 else 0) = 1 := by
        rw [if_pos (by simpa using hne)]
      omega
    | succ sid =>
      simp only [List.getD_cons_succ] at hne
      simp only [List.set_cons_succ, countNe, List.countP_cons]
      have := ih sid (by simpa using hlt) hne
      simp only [countNe] at this
      omega

/-- The unstamped count never exceeds the table length. -/
theorem countNe_le_length (list_id : Nat) (l : List Nat) :
    countNe list_id l ≤ l.length :=
  List.countP_le_length _

/-- Termination of the epsilon-closure insertion: on a well-formed arena with
a correctly sized last-seen table, any fuel exceeding the number of unstamped
states suffices, so the insertion never runs out of fuel. -/
theorem add_state_to_next_isSome (nfa : NFA)
    (ha : ArenaUnder nfa.states.length nfa.states) :
    ∀ (fuel list_id : Nat) (last nlist : List Nat) (sid : Nat),
    last.length = nfa.states.length →
    sid < nfa.states.length →
    countNe list_id last < fuel →
    (add_state_to_next nfa fuel list_id last nlist sid).isSome = true := by
  intro fuel
  induction fuel with
  | zero => intro list_id last nlist sid _ _ hc; omega
  | succ fuel ih =>
    intro list_id last nlist sid hlen hsid hc
    rw [add_state_to_next_succ]
    by_cases hst : last.getD sid 0 = list_id
    · rw [if_pos hst]; rfl
    · rw [if_neg hst]
      have hdec := countNe_set list_id last sid (by omega) hst
      rcases hgs : nfa.states.getD sid .Match with _ | _ | _
      · rfl
      · rename_i out1 out2
        have hmem : State.Split out1 out2 ∈ nfa.states := by
          rcases getD_mem_or_default nfa.states sid .Match with h | h
          · exact hgs ▸ h
          · rw [hgs] at h; cases h
        have hwf := ha _ hmem
        have h1 : (add_state_to_next nfa fuel list_id (last.set sid list_id) nlist
            out1).isSome = true :=
          ih list_id (last.set sid list_id) nlist out1 (by simpa using hlen)
            hwf.1 (by omega)
        rcases hln1 : add_state_to_next nfa fuel list_id (last.set sid list_id) nlist
            out1 with _ | ln1
        · rw [hln1] at h1; cases h1
        · have hsta := add_state_stamps nfa fuel list_id _ _ _ _ hln1
          have hc1 : countNe list_id ln1.1 < fuel := by
            have := countNe_mono list_id (last.set sid list_id) ln1.1
              hsta.1.symm hsta.2.1
            omega
          have h2 := ih list_id ln1.1 ln1.2 out2
            (by rw [hsta.1]; simpa using hlen) hwf.2 hc1
          show (match add_state_to_next nfa fuel list_id (last.set sid list_id)
              nlist out1 with
            | none => (none : Option (List Nat × List Nat))
            | some ln => add_state_to_next nfa fuel list_id ln.1 ln.2 out2).isSome = true
          rw [hln1]
          exact h2
      · rfl

/-- Closure insertion preserves the active-list invariant: starting from a
deduplicated, freshly stamped, split-free, in-bounds list, the result is one
as well. -/
theorem add_state_good (nfa : NFA) : ∀ (fuel list_id : Nat) (last nlist : List Nat)
    (sid : Nat) (ln : List Nat × List Nat),
    add_state_to_next nfa fuel list_id last nlist sid = some ln →
    sid < nfa.states.length →
    last.length = nfa.states.length →
    ArenaUnder nfa.states.length nfa.states →
    GoodList nfa list_id last nlist →
    GoodList nfa list_id ln.1 ln.2 := by
  intro fuel
  induction fuel with
  | zero => intro _ _ _ _ _ h _ _ _ _; cases h
  | succ fuel ih =>
    intro list_id last nlist sid ln h hsid hlen ha hg
    rw [add_state_to_next_succ] at h
    by_cases hst : last.getD sid 0 = list_id
    · rw [if_pos hst] at h
      injection h with h
      subst h
      exact hg
    · rw [if_neg hst] at h
      have hg' : GoodList nfa list_id (last.set sid list_id) nlist := by
        refine ⟨hg.1, ?_, hg.2.2.1, hg.2.2.2⟩
        intro j hj
        have hjne : sid ≠ j := fun he => hst (he ▸ hg.2.1 j hj)
        rw [getD_set_ne last sid j list_id 0 hjne]
        exact hg.2.1 j hj
      have hnotin : sid ∉ nlist := fun hin => hst (hg.2.1 sid hin)
      rcases hgs : nfa.states.getD sid .Match with _ | _ | _
      · rw [hgs] at h
        injection h with h
        subst h
        refine ⟨?_, ?_, ?_, ?_⟩
        · refine List.Nodup.append hg'.1 (List.nodup_singleton _) ?_
          intro a ha' hb'
          rw [List.mem_singleton.mp hb'] at ha'
          exact hnotin ha'
        · intro j hj
          rcases List.mem_append.mp hj with hj | hj
          · exact hg'.2.1 j hj
          · rw [List.mem_singleton.mp hj]
            exact getD_set_self last sid list_id 0 (by omega)
        · intro j hj
          rcases List.mem_append.mp hj with hj | hj
          · exact hg'.2.2.1 j hj
          · rw [List.mem_singleton.mp hj, hgs]
            rfl
        · intro j hj
          rcases List.mem_append.mp hj with hj | hj
          · exact hg'.2.2.2 j hj
          · rw [List.mem_singleton.mp hj]
            exact hsid
      · rename_i out1 out2
        rw [hgs] at h
        replace h : (match add_state_to_next nfa fuel list_id (last.set sid list_id)
              nlist out1 with
            | none => (none : Option (List Nat × List Nat))
            | some ln1 => add_state_to_next nfa fuel list_id ln1.1 ln1.2 out2) =
            some ln := h
        have hmem : State.Split out1 out2 ∈ nfa.states := by
          rcases getD_mem_or_default nfa.states sid .Match with h' | h'
          · exact hgs ▸ h'
          · rw [hgs] at h'; cases h'
        have hwf := ha _ hmem
        rcases h1 : add_state_to_next nfa fuel list_id (last.set sid list_id) nlist out1
          with _ | ln1
        · rw [h1] at h
          exact Option.noConfusion h
        · rw [h1] at h
          have hsta := add_state_stamps nfa fuel list_id _ _ _ _ h1
          have hgood1 := ih list_id (last.set sid list_id) nlist out1 ln1 h1
            hwf.1 (by simpa using hlen) ha hg'
          exact ih list_id ln1.1 ln1.2 out2 ln h hwf.2
            (by rw [hsta.1]; simpa using hlen) ha hgood1
      · rw [hgs] at h
        injection h with h
        subst h
        refine ⟨?_, ?_, ?_, ?_⟩
        · refine List.Nodup.append hg'.1 (List.nodup_singleton _) ?_
          intro a ha' hb'
          rw [List.mem_singleton.mp hb'] at ha'
          exact hnotin ha'
        · intro j hj
          rcases List.mem_append.mp hj with hj | hj
          · exact hg'.2.1 j hj
          · rw [List.mem_singleton.mp hj]
            exact getD_set_self last sid list_id 0 (by omega)
        · intro j hj
          rcases List.mem_append.mp hj with hj | hj
          · exact hg'.2.2.1 j hj
          · rw [List.mem_singleton.mp hj, hgs]
            rfl
        · intro j hj
          rcases List.mem_append.mp hj with hj | hj
          · exact hg'.2.2.2 j hj
          · rw [List.mem_singleton.mp hj]
            exact hsid

/-- Incrementing the list id keeps the table length. -/
theorem increment_list_id_length (list_id : Nat) (last : List Nat) :
    (increment_list_id list_id last).2.length = last.length := by
  unfold increment_list_id
  split <;> simp

/-- Matcher.start preserves the NFA, keeps the table length, and produces a
deduplicated, split-free, in-bounds clist. -/
theorem start_spec (m : Matcher) (m0 : Matcher) (h : m.start = some m0) :
    m0.nfa = m.nfa ∧ m0.list_id = (increment_list_id m.list_id m.last_list_id).1 ∧
    m0.last_list_id.length = m.last_list_id.length ∧
    (m.nfa.start < m.nfa.states.length →
      m.last_list_id.length = m.nfa.states.length →
      ArenaUnder m.nfa.states.length m.nfa.states →
      GoodList m0.nfa m0.list_id m0.last_list_id m0.clist) := by
  unfold Matcher.start at h
  replace h : (match add_state_to_next m.nfa (fuelFor m.nfa)
        (increment_list_id m.list_id m.last_list_id).1
        (increment_list_id m.list_id m.last_list_id).2 [] m.nfa.start with
      | none => (none : Option Matcher)
      | some ln =>
        some { m with list_id := (increment_list_id m.list_id m.last_list_id).1,
                      last_list_id := ln.1, clist := ln.2, nlist := m.clist }) =
      some m0 := h
  rcases hadd : add_state_to_next m.nfa (fuelFor m.nfa)
      (increment_list_id m.list_id m.last_list_id).1
      (increment_list_id m.list_id m.last_list_id).2 [] m.nfa.start with _ | ln
  · rw [hadd] at h
    exact Option.noConfusion h
  · rw [hadd] at h
    injection h with h
    subst h
    refine ⟨rfl, rfl, ?_, ?_⟩
    · have := (add_state_stamps m.nfa _ _ _ _ _ _ hadd).1
      simp only [this]
      exact increment_list_id_length m.list_id m.last_list_id
    · intro hstart hlen ha
      exact add_state_good m.nfa _ _ _ _ _ _ hadd hstart
        (by rw [increment_list_id_length]; exact hlen) ha
        ⟨List.nodup_nil, by simp, by simp, by simp⟩

/-- The step fold over clist preserves the active-list invariant and the
table length. -/
theorem step_fold_good (nfa : NFA) (list_id : Nat) (hb : Nat)
    (ha : ArenaUnder nfa.states.length nfa.states) :
    ∀ (cl : List Nat), (∀ sid ∈ cl, sid < nfa.states.length) →
    ∀ (acc acc' : List Nat × List Nat),
    cl.foldlM
      (fun (ln : List Nat × List Nat) sid =>
        match nfa.states.getD sid .Match with
        | .Literal byte out =>
          if byte = hb then
            add_state_to_next nfa (fuelFor nfa) list_id ln.1 ln.2 out
          else some ln
        | _ => some ln) acc = some acc' →
    acc.1.length = nfa.states.length →
    GoodList nfa list_id acc.1 acc.2 →
    acc'.1.length = nfa.states.length ∧ GoodList nfa list_id acc'.1 acc'.2 := by
  intro cl
  induction cl with
  | nil =>
    intro _ acc acc' h hlen hg
    simp only [List.foldlM_nil] at h
    injection h with h
    subst h
    exact ⟨hlen, hg⟩
  | cons sid cl ih =>
    intro hcl acc acc' h hlen hg
    rw [List.foldlM_cons] at h
    rcases hgs : nfa.states.getD sid .Match with _ | _ | _
    · rename_i byte out
      rw [hgs] at h
      replace h : ((if byte = hb then
              add_state_to_next nfa (fuelFor nfa) list_id acc.1 acc.2 out
            else some acc) >>=
          fun init =>
            List.foldlM
              (fun (ln : List Nat × List Nat) sid =>
                match nfa.states.getD sid State.Match with
                | .Literal byte out =>
                  if byte = hb then
                    add_state_to_next nfa (fuelFor nfa) list_id ln.1 ln.2 out
                  else some ln
                | _ => some ln) init cl) = some acc' := h
      by_cases hbe : byte = hb
      · rw [if_pos hbe] at h
        rcases hone : add_state_to_next nfa (fuelFor nfa) list_id acc.1 acc.2 out
          with _ | ln1
        · rw [hone] at h
          exact Option.noConfusion h
        · rw [hone] at h
          have hmem : State.Literal byte out ∈ nfa.states := by
            rcases getD_mem_or_default nfa.states sid .Match with h' | h'
            · exact hgs ▸ h'
            · rw [hgs] at h'; cases h'
          have hout : out < nfa.states.length := ha _ hmem
          have hg1 := add_state_good nfa _ _ _ _ _ _ hone hout hlen ha hg
          have hlen1 : ln1.1.length = nfa.states.length := by
            rw [(add_state_stamps nfa _ _ _ _ _ _ hone).1]
            exact hlen
          exact ih (fun s hs => hcl s (by simp [hs])) ln1 acc' h hlen1 hg1
      · rw [if_neg hbe] at h
        exact ih (fun s hs => hcl s (by simp [hs])) acc acc' h hlen hg
    · rw [hgs] at h
      exact ih (fun s hs => hcl s (by simp [hs])) acc acc' h hlen hg
    · rw [hgs] at h
      exact ih (fun s hs => hcl s (by simp [hs])) acc acc' h hlen hg

/-- Matcher.stepAndSwap preserves the NFA and the structural invariant, and
produces a deduplicated, split-free, in-bounds clist. -/
theorem stepAndSwap_spec (m : Matcher) (byte : Nat) (m' : Matcher)
    (h : m.stepAndSwap byte = some m')
    (ha : ArenaUnder m.nfa.states.length m.nfa.states)
    (hlen : m.last_list_id.length = m.nfa.states.length)
    (hcl : ∀ sid ∈ m.clist, sid < m.nfa.states.length) :
    m'.nfa = m.nfa ∧ m'.last_list_id.length = m.nfa.states.length ∧
    GoodList m'.nfa m'.list_id m'.last_list_id m'.clist := by
  unfold Matcher.stepAndSwap at h
  rcases hstep : m.step byte with _ | m1
  · rw [hstep] at h; cases h
  · rw [hstep] at h
    injection h with h
    subst h
    unfold Matcher.step at hstep
    replace hstep : (match m.clist.foldlM
          (fun (ln : List Nat × List Nat) sid =>
            match m.nfa.states.getD sid .Match with
            | .Literal b out =>
              if b = byte then
                add_state_to_next m.nfa (fuelFor m.nfa)
                  (increment_list_id m.list_id m.last_list_id).1 ln.1 ln.2 out
              else some ln
            | _ => some ln)
          ((increment_list_id m.list_id m.last_list_id).2, ([] : List Nat)) with
        | none => (none : Option Matcher)
        | some ln =>
          some { m with list_id := (increment_list_id m.list_id m.last_list_id).1,
                        last_list_id := ln.1, nlist := ln.2 }) = some m1 := hstep
    rcases hfold : m.clist.foldlM
        (fun (ln : List Nat × List Nat) sid =>
          match m.nfa.states.getD sid .Match with
          | .Literal b out =>
            if b = byte then
              add_state_to_next m.nfa (fuelFor m.nfa)
                (increment_list_id m.list_id m.last_list_id).1 ln.1 ln.2 out
            else some ln
          | _ => some ln)
        ((increment_list_id m.list_id m.last_list_id).2, ([] : List Nat))
        with _ | ln
    · rw [hfold] at hstep
      exact Option.noConfusion hstep
    · rw [hfold] at hstep
      injection hstep with hstep
      subst hstep
      have := step_fold_good m.nfa (increment_list_id m.list_id m.last_list_id).1
        byte ha m.clist hcl _ ln hfold
        (by rw [increment_list_id_length]; exact hlen)
        ⟨List.nodup_nil, by simp, by simp, by simp⟩
      exact ⟨rfl, this.1, this.2⟩

/-- The fold of stepAndSwap along a haystack preserves the structural
invariant and the active-list invariant. -/
theorem fold_stepAndSwap_good : ∀ (l : List Nat) (ma mb : Matcher),
    l.foldlM Matcher.stepAndSwap ma = some mb →
    ArenaUnder ma.nfa.states.length ma.nfa.states →
    ma.last_list_id.length = ma.nfa.states.length →
    GoodList ma.nfa ma.list_id ma.last_list_id ma.clist →
    mb.nfa = ma.nfa ∧
    ArenaUnder mb.nfa.states.length mb.nfa.states ∧
    mb.last_list_id.length = mb.nfa.states.length ∧
    GoodList mb.nfa mb.list_id mb.last_list_id mb.clist := by
  intro l
  induction l with
  | nil =>
    intro ma mb h ha hl hg
    simp only [List.foldlM_nil] at h
    injection h with h
    subst h
    exact ⟨rfl, ha, hl, hg⟩
  | cons b l ih =>
    intro ma mb h ha hl hg
    rw [List.foldlM_cons] at h
    rcases hsw : ma.stepAndSwap b with _ | mc
    · rw [hsw] at h
      exact Option.noConfusion h
    · rw [hsw] at h
      have hsp := stepAndSwap_spec ma b mc hsw ha hl hg.2.2.2
      have := ih mc mb h (by rw [hsp.1]; exact ha)
        (by rw [hsp.1]; exact hsp.2.1) hsp.2.2
      exact ⟨by rw [this.1, hsp.1], this.2⟩

/-- C5: on any automaton built from an accepted pattern, after the initial
closure and any number of haystack steps, the current active-state set holds
no Split state and no duplicate handle. -/
theorem c5_active_set_invariant :
    ∀ (re post : List Nat) (nfa : NFA), re2post re = some post →
    post2nfa post = .built nfa →
    ∀ (hay : List Nat) (k : Nat) (m0 mk : Matcher),
    (Matcher.new nfa).start = some m0 →
    (hay.take k).foldlM Matcher.stepAndSwap m0 = some mk →
    mk.clist.Nodup ∧
    ∀ sid ∈ mk.clist, (mk.nfa.states.getD sid .Match).isSplitState = false := by
  intro re post nfa _hre hb hay k m0 mk hstart hfold
  have hwf := post2nfa_wf post nfa hb
  have hs := start_spec (Matcher.new nfa) m0 hstart
  have hg0 : GoodList m0.nfa m0.list_id m0.last_list_id m0.clist :=
    hs.2.2.2 hwf.1 (by simp [Matcher.new]) hwf.2
  have hnfa0 : m0.nfa = nfa := hs.1
  have hlen0 : m0.last_list_id.length = m0.nfa.states.length := by
    rw [hs.2.2.1, hnfa0]
    simp [Matcher.new]
  have := fold_stepAndSwap_good (hay.take k) m0 mk hfold
    (by rw [hnfa0]; exact hwf.2) hlen0 hg0
  exact ⟨this.2.2.2.1, this.2.2.2.2.2.1⟩

/-- C5 witness: the invariant theorem applied to the cyclic pattern a-star,
the haystack consisting of one a byte, and one step; the handle 0 in the
resulting active set is the a Literal state, not a Split. -/
theorem c5_witness :
    (Matcher.mk ⟨1, [.Literal 97 1, .Split 0 2, .Match]⟩ [0, 2] [0, 2] 2 [2, 2, 2]).clist.Nodup ∧
    (((Matcher.mk ⟨1, [.Literal 97 1, .Split 0 2, .Match]⟩ [0, 2] [0, 2] 2
        [2, 2, 2]).nfa.states.getD 0 .Match).isSplitState = false) := by
  have h := c5_active_set_invariant [97, 42] [97, 42]
    ⟨1, [.Literal 97 1, .Split 0 2, .Match]⟩ (by decide) (by decide)
    [97] 1
    (Matcher.mk ⟨1, [.Literal 97 1, .Split 0 2, .Match]⟩ [0, 2] [] 1 [1, 1, 1])
    (Matcher.mk ⟨1, [.Literal 97 1, .Split 0 2, .Match]⟩ [0, 2] [0, 2] 2 [2, 2, 2])
    (by decide) (by decide)
  exact ⟨h.1, h.2 0 (by decide)⟩

/-- C6: on any automaton built from an accepted pattern (including cyclic
ones from star and plus), epsilon-closure insertion with the matcher's fuel
budget of one more than the state count always terminates with a result: a
state already stamped with the current generation is skipped, so the
recursion is bounded by the number of unstamped states. -/
theorem c6_closure_termination :
    ∀ (re post : List Nat) (nfa : NFA), re2post re = some post →
    post2nfa post = .built nfa →
    ∀ (list_id : Nat) (last nlist : List Nat) (sid : Nat),
    last.length = nfa.states.length → sid < nfa.states.length →
    (add_state_to_next nfa (fuelFor nfa) list_id last nlist sid).isSome = true := by
  intro re post nfa _hre hb list_id last nlist sid hlen hsid
  have hwf := post2nfa_wf post nfa hb
  refine add_state_to_next_isSome nfa hwf.2 (fuelFor nfa) list_id last nlist sid hlen hsid ?_
  have := countNe_le_length list_id last
  unfold fuelFor
  omega

/-- C6 witness: the termination theorem applied to the a-star automaton,
whose Split state 1 has a back edge to state 0, inserting the Split state. -/
theorem c6_witness :
    (add_state_to_next ⟨1, [.Literal 97 1, .Split 0 2, .Match]⟩
      (fuelFor ⟨1, [.Literal 97 1, .Split 0 2, .Match]⟩) 1 [0, 0, 0] [] 1).isSome = true :=
  c6_closure_termination [97, 42] [97, 42] ⟨1, [.Literal 97 1, .Split 0 2, .Match]⟩
    (by decide) (by decide) 1 [0, 0, 0] [] 1 (by decide) (by decide)

/-- Matcher.step preserves the NFA. -/
theorem step_nfa (m : Matcher) (byte : Nat) (m1 : Matcher)
    (h : m.step byte = some m1) : m1.nfa = m.nfa := by
  unfold Matcher.step at h
  replace h : (match m.clist.foldlM
        (fun (ln : List Nat × List Nat) sid =>
          match m.nfa.states.getD sid .Match with
          | .Literal b out =>
            if b = byte then
              add_state_to_next m.nfa (fuelFor m.nfa)
                (increment_list_id m.list_id m.last_list_id).1 ln.1 ln.2 out
            else some ln
          | _ => some ln)
        ((increment_list_id m.list_id m.last_list_id).2, ([] : List Nat)) with
      | none => (none : Option Matcher)
      | some ln =>
        some { m with list_id := (increment_list_id m.list_id m.last_list_id).1,
                      last_list_id := ln.1, nlist := ln.2 }) = some m1 := h
  rcases hfold : m.clist.foldlM
      (fun (ln : List Nat × List Nat) sid =>
        match m.nfa.states.getD sid .Match with
        | .Literal b out =>
          if b = byte then
            add_state_to_next m.nfa (fuelFor m.nfa)
              (increment_list_id m.list_id m.last_list_id).1 ln.1 ln.2 out
          else some ln
        | _ => some ln)
      ((increment_list_id m.list_id m.last_list_id).2, ([] : List Nat)) with _ | ln
  · rw [hfold] at h
    exact Option.noConfusion h
  · rw [hfold] at h
    injection h with h
    subst h
    rfl

/-- Matcher.stepAndSwap preserves the NFA. -/
theorem stepAndSwap_nfa (m : Matcher) (byte : Nat) (m' : Matcher)
    (h : m.stepAndSwap byte = some m') : m'.nfa = m.nfa := by
  unfold Matcher.stepAndSwap at h
  rcases hstep : m.step byte with _ | m1
  · rw [hstep] at h
    exact Option.noConfusion h
  · rw [hstep] at h
    injection h with h
    subst h
    exact step_nfa m byte m1 hstep

/-- The fold of stepAndSwap preserves the NFA. -/
theorem fold_stepAndSwap_nfa : ∀ (l : List Nat) (ma mb : Matcher),
    l.foldlM Matcher.stepAndSwap ma = some mb → mb.nfa = ma.nfa := by
  intro l
  induction l with
  | nil =>
    intro ma mb h
    simp only [List.foldlM_nil] at h
    injection h with h
    subst h
    rfl
  | cons b l ih =>
    intro ma mb h
    rw [List.foldlM_cons] at h
    rcases hsw : ma.stepAndSwap b with _ | mc
    · rw [hsw] at h
      exact Option.noConfusion h
    · rw [hsw] at h
      rw [ih mc mb h, stepAndSwap_nfa ma b mc hsw]

/-- C8: a match call never mutates the automaton: the NFA of the returned
matcher (its arena of states with all tags, bytes and transition handles, and
its start handle) is the one it started with; all mutable search state lives
in the other fields of the Matcher. -/
theorem c8_automaton_immutable :
    ∀ (m : Matcher) (hay : List Nat) (b : Bool) (m' : Matcher),
    m.is_match hay = some (b, m') → m'.nfa = m.nfa := by
  intro m hay b m' h
  unfold Matcher.is_match at h
  rcases hst : m.start with _ | m0
  · rw [hst] at h
    exact Option.noConfusion h
  · rw [hst] at h
    replace h : (match hay.foldlM Matcher.stepAndSwap m0 with
        | none => (none : Option (Bool × Matcher))
        | some mf =>
          some (mf.clist.any fun sid => (mf.nfa.states.getD sid .Match).isMatchState,
            mf)) = some (b, m') := h
    rcases hfold : hay.foldlM Matcher.stepAndSwap m0 with _ | mf
    · rw [hfold] at h
      exact Option.noConfusion h
    · rw [hfold] at h
      injection h with h
      have hm' : mf = m' := congrArg Prod.snd h
      rw [← hm', fold_stepAndSwap_nfa hay m0 mf hfold, (start_spec m m0 hst).1]

/-- C8 witness: a concrete match call on the a-star automaton returns a
matcher whose NFA equals the original. -/
theorem c8_witness :
    (Matcher.new ⟨1, [.Literal 97 1, .Split 0 2, .Match]⟩).is_match [97] =
      some (true, Matcher.mk ⟨1, [.Literal 97 1, .Split 0 2, .Match]⟩
        [0, 2] [0, 2] 2 [2, 2, 2]) ∧
    (Matcher.mk ⟨1, [.Literal 97 1, .Split 0 2, .Match]⟩
      [0, 2] [0, 2] 2 [2, 2, 2]).nfa =
      (Matcher.new ⟨1, [.Literal 97 1, .Split 0 2, .Match]⟩).nfa :=
  ⟨by decide,
   c8_automaton_immutable (Matcher.new ⟨1, [.Literal 97 1, .Split 0 2, .Match]⟩)
     [97] true _ (by decide)⟩

/-- Reading a constant-zero map always yields zero. -/
theorem getD_map_zero : ∀ (l : List Nat) (i : Nat),
    (l.map fun _ => 0).getD i 0 = 0
  | [], _ => rfl
  | _ :: _, 0 => rfl
  | _ :: t, i + 1 => getD_map_zero t i

/-- The increment at the maximal u32 value resets the table and restarts. -/
theorem increment_max (last : List Nat) :
    increment_list_id (2 ^ 32 - 1) last = (1, last.map fun _ => 0) := by
  unfold increment_list_id
  rw [if_pos rfl]

/-- The increment below the maximal u32 value just adds one. -/
theorem increment_lt (list_id : Nat) (h : list_id ≠ 2 ^ 32 - 1) (last : List Nat) :
    increment_list_id list_id last = (list_id + 1, last) := by
  unfold increment_list_id
  rw [if_neg h]

/-- From a valid generation state, the increment yields a fresh generation:
no stamp equals the new id, the generation invariant is re-established, and
the table keeps its length. -/
theorem increment_fresh (list_id : Nat) (last : List Nat)
    (hle : ∀ i, last.getD i 0 ≤ list_id) (hmax : list_id ≤ 2 ^ 32 - 1) :
    (∀ i, (increment_list_id list_id last).2.getD i 0 ≠
      (increment_list_id list_id last).1) ∧
    (∀ i, (increment_list_id list_id last).2.getD i 0 ≤
      (increment_list_id list_id last).1) ∧
    (increment_list_id list_id last).1 ≤ 2 ^ 32 - 1 ∧
    (increment_list_id list_id last).2.length = last.length := by
  by_cases hm : list_id = 2 ^ 32 - 1
  · subst hm
    rw [increment_max]
    refine ⟨?_, ?_, by norm_num, by simp⟩
    · intro i
      rw [show ((1 : Nat), last.map fun _ => 0).2 = last.map fun _ => 0 from rfl,
        getD_map_zero]
      simp
    · intro i
      rw [show ((1 : Nat), last.map fun _ => 0).2 = last.map fun _ => 0 from rfl,
        getD_map_zero]
      omega
  · rw [increment_lt list_id hm]
    refine ⟨?_, ?_, by omega, rfl⟩
    · intro i
      have := hle i
      simp only []
      omega
    · intro i
      have := hle i
      simp only []
      omega

/-- Setting the respective current stamp preserves stamp equivalence. -/
theorem stampEquiv_set (id1 id2 : Nat) (l1 l2 : List Nat) (sid : Nat)
    (he : StampEquiv id1 l1 id2 l2) :
    StampEquiv id1 (l1.set sid id1) id2 (l2.set sid id2) := by
  refine ⟨by simp [he.1], ?_⟩
  intro i
  by_cases hi : sid = i
  · subst hi
    by_cases hlt : sid < l1.length
    · rw [getD_set_self l1 sid id1 0 hlt,
        getD_set_self l2 sid id2 0 (by rw [← he.1]; exact hlt)]
      simp
    · rw [List.set_eq_of_length_le (by omega),
        List.set_eq_of_length_le (by rw [← he.1]; omega)]
      exact he.2 sid
  · rw [getD_set_ne l1 sid i id1 0 hi, getD_set_ne l2 sid i id2 0 hi]
    exact he.2 i

/-- Closure insertions over stamp-equivalent tables behave identically. -/
theorem add_state_congr (nfa : NFA) : ∀ (fuel id1 id2 : Nat)
    (l1 l2 nlist : List Nat) (sid : Nat),
    StampEquiv id1 l1 id2 l2 →
    InsRel id1 id2 (add_state_to_next nfa fuel id1 l1 nlist sid)
      (add_state_to_next nfa fuel id2 l2 nlist sid) := by
  intro fuel
  induction fuel with
  | zero => intro _ _ _ _ _ _ _; trivial
  | succ fuel ih =>
    intro id1 id2 l1 l2 nlist sid he
    rw [add_state_to_next_succ, add_state_to_next_succ]
    by_cases h1 : l1.getD sid 0 = id1
    · have h2 := (he.2 sid).mp h1
      rw [if_pos h1, if_pos h2]
      exact ⟨rfl, he⟩
    · have h2 : ¬ l2.getD sid 0 = id2 := fun hh => h1 ((he.2 sid).mpr hh)
      rw [if_neg h1, if_neg h2]
      have he' := stampEquiv_set id1 id2 l1 l2 sid he
      rcases hgs : nfa.states.getD sid .Match with _ | _ | _
      · exact ⟨rfl, he'⟩
      · rename_i o1 o2
        show InsRel id1 id2
          (match add_state_to_next nfa fuel id1 (l1.set sid id1) nlist o1 with
           | none => none
           | some ln => add_state_to_next nfa fuel id1 ln.1 ln.2 o2)
          (match add_state_to_next nfa fuel id2 (l2.set sid id2) nlist o1 with
           | none => none
           | some ln => add_state_to_next nfa fuel id2 ln.1 ln.2 o2)
        have hrec1 := ih id1 id2 (l1.set sid id1) (l2.set sid id2) nlist o1 he'
        rcases hA1 : add_state_to_next nfa fuel id1 (l1.set sid id1) nlist o1
          with _ | ln1 <;>
          rcases hA2 : add_state_to_next nfa fuel id2 (l2.set sid id2) nlist o1
            with _ | ln2
        · trivial
        · rw [hA1, hA2] at hrec1
          exact hrec1.elim
        · rw [hA1, hA2] at hrec1
          exact hrec1.elim
        · rw [hA1, hA2] at hrec1
          show InsRel id1 id2
            (add_state_to_next nfa fuel id1 ln1.1 ln1.2 o2)
            (add_state_to_next nfa fuel id2 ln2.1 ln2.2 o2)
          rw [hrec1.1]
          exact ih id1 id2 ln1.1 ln2.1 ln2.2 o2 hrec1.2
      · exact ⟨rfl, he'⟩

/-- The step fold over equal current lists and stamp-equivalent tables
behaves identically. -/
theorem step_fold_congr (nfa : NFA) (id1 id2 hb : Nat) :
    ∀ (cl : List Nat) (acc1 acc2 : List Nat × List Nat),
    StampEquiv id1 acc1.1 id2 acc2.1 → acc1.2 = acc2.2 →
    InsRel id1 id2
      (cl.foldlM
        (fun (ln : List Nat × List Nat) sid =>
          match nfa.states.getD sid .Match with
          | .Literal byte out =>
            if byte = hb then
              add_state_to_next nfa (fuelFor nfa) id1 ln.1 ln.2 out
            else some ln
          | _ => some ln) acc1)
      (cl.foldlM
        (fun (ln : List Nat × List Nat) sid =>
          match nfa.states.getD sid .Match with
          | .Literal byte out =>
            if byte = hb then
              add_state_to_next nfa (fuelFor nfa) id2 ln.1 ln.2 out
            else some ln
          | _ => some ln) acc2) := by
  intro cl
  induction cl with
  | nil =>
    intro acc1 acc2 he hacc
    simp only [List.foldlM_nil]
    exact ⟨hacc, he⟩
  | cons sid cl ih =>
    intro acc1 acc2 he hacc
    rw [List.foldlM_cons, List.foldlM_cons]
    rcases hgs : nfa.states.getD sid .Match with _ | _ | _
    · rename_i byte out
      show InsRel id1 id2
        ((if byte = hb then
            add_state_to_next nfa (fuelFor nfa) id1 acc1.1 acc1.2 out
          else some acc1) >>= fun init =>
          cl.foldlM
            (fun (ln : List Nat × List Nat) sid =>
              match nfa.states.getD sid .Match with
              | .Literal byte out =>
                if byte = hb then
                  add_state_to_next nfa (fuelFor nfa) id1 ln.1 ln.2 out
                else some ln
              | _ => some ln) init)
        ((if byte = hb then
            add_state_to_next nfa (fuelFor nfa) id2 acc2.1 acc2.2 out
          else some acc2) >>= fun init =>
          cl.foldlM
            (fun (ln : List Nat × List Nat) sid =>
              match nfa.states.getD sid .Match with
              | .Literal byte out =>
                if byte = hb then
                  add_state_to_next nfa (fuelFor nfa) id2 ln.1 ln.2 out
                else some ln
              | _ => some ln) init)
      by_cases hbe : byte = hb
      · rw [if_pos hbe, if_pos hbe]
        rw [hacc]
        have hrel := add_state_congr nfa (fuelFor nfa) id1 id2 acc1.1 acc2.1 acc2.2 out he
        rcases hA1 : add_state_to_next nfa (fuelFor nfa) id1 acc1.1 acc2.2 out
          with _ | ln1 <;>
          rcases hA2 : add_state_to_next nfa (fuelFor nfa) id2 acc2.1 acc2.2 out
            with _ | ln2
        · trivial
        · rw [hA1, hA2] at hrel
          exact hrel.elim
        · rw [hA1, hA2] at hrel
          exact hrel.elim
        · rw [hA1, hA2] at hrel
          exact ih ln1 ln2 hrel.2 hrel.1
      · rw [if_neg hbe, if_neg hbe]
        exact ih acc1 acc2 he hacc
    · show InsRel id1 id2
        (some acc1 >>= fun init =>
          cl.foldlM
            (fun (ln : List Nat × List Nat) sid =>
              match nfa.states.getD sid .Match with
              | .Literal byte out =>
                if byte = hb then
                  add_state_to_next nfa (fuelFor nfa) id1 ln.1 ln.2 out
                else some ln
              | _ => some ln) init)
        (some acc2 >>= fun init =>
          cl.foldlM
            (fun (ln : List Nat × List Nat) sid =>
              match nfa.states.getD sid .Match with
              | .Literal byte out =>
                if byte = hb then
                  add_state_to_next nfa (fuelFor nfa) id2 ln.1 ln.2 out
                else some ln
              | _ => some ln) init)
      exact ih acc1 acc2 he hacc
    · show InsRel id1 id2
        (some acc1 >>= fun init =>
          cl.foldlM
            (fun (ln : List Nat × List Nat) sid =>
              match nfa.states.getD sid .Match with
              | .Literal byte out =>
                if byte = hb then
                  add_state_to_next nfa (fuelFor nfa) id1 ln.1 ln.2 out
                else some ln
              | _ => some ln) init)
        (some acc2 >>= fun init =>
          cl.foldlM
            (fun (ln : List Nat × List Nat) sid =>
              match nfa.states.getD sid .Match with
              | .Literal byte out =>
                if byte = hb then
                  add_state_to_next nfa (fuelFor nfa) id2 ln.1 ln.2 out
                else some ln
              | _ => some ln) init)
      exact ih acc1 acc2 he hacc

/-- The step fold only writes the current list id into the table. -/
theorem step_fold_stamps (nfa : NFA) (list_id hb : Nat) :
    ∀ (cl : List Nat) (acc acc' : List Nat × List Nat),
    cl.foldlM
      (fun (ln : List Nat × List Nat) sid =>
        match nfa.states.getD sid .Match with
        | .Literal byte out =>
          if byte = hb then
            add_state_to_next nfa (fuelFor nfa) list_id ln.1 ln.2 out
          else some ln
        | _ => some ln) acc = some acc' →
    acc'.1.length = acc.1.length ∧
    (∀ i, acc'.1.getD i 0 = acc.1.getD i 0 ∨ acc'.1.getD i 0 = list_id) := by
  intro cl
  induction cl with
  | nil =>
    intro acc acc' h
    simp only [List.foldlM_nil] at h
    injection h with h
    subst h
    exact ⟨rfl, fun i => Or.inl rfl⟩
  | cons sid cl ih =>
    intro acc acc' h
    rw [List.foldlM_cons] at h
    rcases hgs : nfa.states.getD sid .Match with _ | _ | _
    · rename_i byte out
      rw [hgs] at h
      replace h : ((if byte = hb then
              add_state_to_next nfa (fuelFor nfa) list_id acc.1 acc.2 out
            else some acc) >>=
          fun init =>
            cl.foldlM
              (fun (ln : List Nat × List Nat) sid =>
                match nfa.states.getD sid State.Match with
                | .Literal byte out =>
                  if byte = hb then
                    add_state_to_next nfa (fuelFor nfa) list_id ln.1 ln.2 out
                  else some ln
                | _ => some ln) init) = some acc' := h
      by_cases hbe : byte = hb
      · rw [if_pos hbe] at h
        rcases hone : add_state_to_next nfa (fuelFor nfa) list_id acc.1 acc.2 out
          with _ | ln1
        · rw [hone] at h
          exact Option.noConfusion h
        · rw [hone] at h
          have hsta := add_state_stamps nfa _ _ _ _ _ _ hone
          have := ih ln1 acc' h
          refine ⟨by rw [this.1, hsta.1], ?_⟩
          intro i
          rcases this.2 i with h2 | h2
          · rw [h2]
            exact hsta.2.1 i
          · exact Or.inr h2
      · rw [if_neg hbe] at h
        exact ih acc acc' h
    · rw [hgs] at h
      exact ih acc acc' h
    · rw [hgs] at h
      exact ih acc acc' h

/-- Matcher.step as a map over the step fold. -/
theorem step_eq (m : Matcher) (byte : Nat) :
    m.step byte =
      (m.clist.foldlM
        (fun (ln : List Nat × List Nat) sid =>
          match m.nfa.states.getD sid .Match with
          | .Literal b out =>
            if b = byte then
              add_state_to_next m.nfa (fuelFor m.nfa)
                (increment_list_id m.list_id m.last_list_id).1 ln.1 ln.2 out
            else some ln
          | _ => some ln)
        ((increment_list_id m.list_id m.last_list_id).2, ([] : List Nat))).map
        (fun ln : List Nat × List Nat =>
          { m with list_id := (increment_list_id m.list_id m.last_list_id).1,
                   last_list_id := ln.1, nlist := ln.2 }) := by
  show (match m.clist.foldlM
        (fun (ln : List Nat × List Nat) sid =>
          match m.nfa.states.getD sid .Match with
          | .Literal b out =>
            if b = byte then
              add_state_to_next m.nfa (fuelFor m.nfa)
                (increment_list_id m.list_id m.last_list_id).1 ln.1 ln.2 out
            else some ln
          | _ => some ln)
        ((increment_list_id m.list_id m.last_list_id).2, ([] : List Nat)) with
      | none => (none : Option Matcher)
      | some ln =>
        some { m with list_id := (increment_list_id m.list_id m.last_list_id).1,
                      last_list_id := ln.1, nlist := ln.2 }) = _
  rcases hfold : m.clist.foldlM
      (fun (ln : List Nat × List Nat) sid =>
        match m.nfa.states.getD sid .Match with
        | .Literal b out =>
          if b = byte then
            add_state_to_next m.nfa (fuelFor m.nfa)
              (increment_list_id m.list_id m.last_list_id).1 ln.1 ln.2 out
          else some ln
        | _ => some ln)
      ((increment_list_id m.list_id m.last_list_id).2, ([] : List Nat)) with _ | ln <;>
    first
    | rfl
    | (rw [hfold]; rfl)

/-- Matcher.start as a map over the closure insertion of the start state. -/
theorem start_eq (m : Matcher) :
    m.start =
      (add_state_to_next m.nfa (fuelFor m.nfa)
        (increment_list_id m.list_id m.last_list_id).1
        (increment_list_id m.list_id m.last_list_id).2 [] m.nfa.start).map
        (fun ln : List Nat × List Nat =>
          { m with list_id := (increment_list_id m.list_id m.last_list_id).1,
                   last_list_id := ln.1, clist := ln.2, nlist := m.clist }) := by
  show (match add_state_to_next m.nfa (fuelFor m.nfa)
        (increment_list_id m.list_id m.last_list_id).1
        (increment_list_id m.list_id m.last_list_id).2 [] m.nfa.start with
      | none => (none : Option Matcher)
      | some ln =>
        some { m with list_id := (increment_list_id m.list_id m.last_list_id).1,
                      last_list_id := ln.1, clist := ln.2, nlist := m.clist }) = _
  rcases hadd : add_state_to_next m.nfa (fuelFor m.nfa)
      (increment_list_id m.list_id m.last_list_id).1
      (increment_list_id m.list_id m.last_list_id).2 [] m.nfa.start with _ | ln <;>
    rfl

/-- Case analysis on the insertion relation. -/
theorem insRel_cases {id1 id2 : Nat} {o1 o2 : Option (List Nat × List Nat)}
    (h : InsRel id1 id2 o1 o2) :
    (o1 = none ∧ o2 = none) ∨
    ∃ r1 r2, o1 = some r1 ∧ o2 = some r2 ∧ r1.2 = r2.2 ∧
      StampEquiv id1 r1.1 id2 r2.1 := by
  rcases o1 with _ | r1 <;> rcases o2 with _ | r2
  · exact Or.inl ⟨rfl, rfl⟩
  · exact h.elim
  · exact h.elim
  · exact Or.inr ⟨r1, r2, rfl, rfl, h.1, h.2⟩

/-- Two fresh generations over stamp tables of equal length stamp the same
(empty) set of states. -/
theorem stampEquiv_fresh {id1 id2 : Nat} {l1 l2 : List Nat}
    (h1 : ∀ i, l1.getD i 0 ≠ id1) (h2 : ∀ i, l2.getD i 0 ≠ id2)
    (hlen : l1.length = l2.length) : StampEquiv id1 l1 id2 l2 :=
  ⟨hlen, fun i => ⟨fun hc => absurd hc (h1 i), fun hc => absurd hc (h2 i)⟩⟩

/-- A step on two related matchers: both fail together, and both successors
are again related with equal next lists. -/
theorem step_simrel (m1 m2 : Matcher) (byte : Nat) (hr : SimRel m1 m2) :
    (m1.step byte = none ↔ m2.step byte = none) ∧
    ∀ m1' m2', m1.step byte = some m1' → m2.step byte = some m2' →
      m1'.nfa = m1.nfa ∧ m2'.nfa = m2.nfa ∧ m1'.clist = m1.clist ∧
      m2'.clist = m2.clist ∧ m1'.nlist = m2'.nlist ∧
      m1'.last_list_id.length = m2'.last_list_id.length ∧
      MatcherInv m1' ∧ MatcherInv m2' := by
  obtain ⟨hnfa, hcl, hlen, hinv1, hinv2⟩ := hr
  have fresh1 := increment_fresh m1.list_id m1.last_list_id hinv1.1 hinv1.2
  have fresh2 := increment_fresh m2.list_id m2.last_list_id hinv2.1 hinv2.2
  have hequiv : StampEquiv (increment_list_id m1.list_id m1.last_list_id).1
      (increment_list_id m1.list_id m1.last_list_id).2
      (increment_list_id m2.list_id m2.last_list_id).1
      (increment_list_id m2.list_id m2.last_list_id).2 :=
    stampEquiv_fresh fresh1.1 fresh2.1 (by rw [fresh1.2.2.2, fresh2.2.2.2, hlen])
  have hrel := step_fold_congr m1.nfa (increment_list_id m1.list_id m1.last_list_id).1
    (increment_list_id m2.list_id m2.last_list_id).1 byte m1.clist
    ((increment_list_id m1.list_id m1.last_list_id).2, ([] : List Nat))
    ((increment_list_id m2.list_id m2.last_list_id).2, ([] : List Nat)) hequiv rfl
  have e1 := step_eq m1 byte
  have e2 := step_eq m2 byte
  rw [← hnfa, ← hcl] at e2
  rcases insRel_cases hrel with ⟨hn1, hn2⟩ | ⟨r1, r2, hs1, hs2, hnl, hse⟩
  · rw [hn1] at e1
    rw [hn2] at e2
    refine ⟨by rw [e1, e2]; exact Iff.rfl, ?_⟩
    intro m1' m2' hm1 hm2
    rw [e1] at hm1
    exact Option.noConfusion hm1
  · rw [hs1] at e1
    rw [hs2] at e2
    replace e1 : m1.step byte = some (Matcher.mk m1.nfa m1.clist r1.2
      (increment_list_id m1.list_id m1.last_list_id).1 r1.1) := e1
    replace e2 : m2.step byte = some (Matcher.mk m1.nfa m1.clist r2.2
      (increment_list_id m2.list_id m2.last_list_id).1 r2.1) := e2
    refine ⟨⟨fun hX => by rw [e1] at hX; exact Option.noConfusion hX,
      fun hX => by rw [e2] at hX; exact Option.noConfusion hX⟩, ?_⟩
    intro m1' m2' hm1 hm2
    rw [e1] at hm1
    rw [e2] at hm2
    injection hm1 with hm1
    injection hm2 with hm2
    subst hm1
    subst hm2
    have hst1 := step_fold_stamps m1.nfa
      (increment_list_id m1.list_id m1.last_list_id).1 byte m1.clist _ r1 hs1
    have hst2 := step_fold_stamps m1.nfa
      (increment_list_id m2.list_id m2.last_list_id).1 byte m1.clist _ r2 hs2
    refine ⟨rfl, hnfa, rfl, hcl, hnl, hse.1, ⟨?_, fresh1.2.2.1⟩, ⟨?_, fresh2.2.2.1⟩⟩
    · intro i
      rcases hst1.2 i with h' | h'
      · rw [h']
        exact fresh1.2.1 i
      · rw [h']
    · intro i
      rcases hst2.2 i with h' | h'
      · rw [h']
        exact fresh2.2.1 i
      · rw [h']

/-- A step-and-swap on two related matchers: both fail together, and both
successors are again related. -/
theorem stepAndSwap_simrel (m1 m2 : Matcher) (byte : Nat) (hr : SimRel m1 m2) :
    (m1.stepAndSwap byte = none ↔ m2.stepAndSwap byte = none) ∧
    ∀ m1' m2', m1.stepAndSwap byte = some m1' → m2.stepAndSwap byte = some m2' →
      SimRel m1' m2' := by
  have hs := step_simrel m1 m2 byte hr
  unfold Matcher.stepAndSwap
  rcases h1 : m1.step byte with _ | ma <;> rcases h2 : m2.step byte with _ | mb
  · exact ⟨by simp, fun _ _ hc _ => by cases hc⟩
  · exact absurd (hs.1.mp h1) (by rw [h2]; simp)
  · exact absurd (hs.1.mpr h2) (by rw [h1]; simp)
  · have hc := hs.2 ma mb h1 h2
    refine ⟨by simp, ?_⟩
    intro m1' m2' hm1 hm2
    injection hm1 with hm1
    injection hm2 with hm2
    subst hm1
    subst hm2
    obtain ⟨hrnfa, _, _, _, _⟩ := hr
    exact ⟨by show ma.nfa = mb.nfa; rw [hc.1, hc.2.1, hrnfa],
      by show ma.nlist = mb.nlist; exact hc.2.2.2.2.1,
      by show ma.last_list_id.length = mb.last_list_id.length; exact hc.2.2.2.2.2.1,
      hc.2.2.2.2.2.2.1, hc.2.2.2.2.2.2.2⟩

/-- The haystack fold preserves the matcher relation. -/
theorem fold_haystack_simrel : ∀ (hay : List Nat) (m1 m2 : Matcher),
    SimRel m1 m2 →
    (hay.foldlM Matcher.stepAndSwap m1 = none ↔
      hay.foldlM Matcher.stepAndSwap m2 = none) ∧
    ∀ mf1 mf2, hay.foldlM Matcher.stepAndSwap m1 = some mf1 →
      hay.foldlM Matcher.stepAndSwap m2 = some mf2 → SimRel mf1 mf2 := by
  intro hay
  induction hay with
  | nil =>
    intro m1 m2 hr
    refine ⟨by simp [List.foldlM_nil], ?_⟩
    intro mf1 mf2 h1 h2
    simp only [List.foldlM_nil] at h1 h2
    injection h1 with h1
    injection h2 with h2
    subst h1
    subst h2
    exact hr
  | cons b hay ih =>
    intro m1 m2 hr
    have hsw := stepAndSwap_simrel m1 m2 b hr
    rw [List.foldlM_cons, List.foldlM_cons]
    rcases h1 : m1.stepAndSwap b with _ | ma <;>
      rcases h2 : m2.stepAndSwap b with _ | mb
    · exact ⟨by simp, fun _ _ hc _ => by simp at hc⟩
    · exact absurd (hsw.1.mp h1) (by rw [h2]; simp)
    · exact absurd (hsw.1.mpr h2) (by rw [h1]; simp)
    · have hrel := hsw.2 ma mb h1 h2
      exact ih ma mb hrel

/-- A start on two matchers over the same automaton with valid generation
state: both fail together, and both successors are related. -/
theorem start_simrel (m1 m2 : Matcher) (hnfa : m1.nfa = m2.nfa)
    (hlen : m1.last_list_id.length = m2.last_list_id.length)
    (hinv1 : MatcherInv m1) (hinv2 : MatcherInv m2) :
    (m1.start = none ↔ m2.start = none) ∧
    ∀ m1' m2', m1.start = some m1' → m2.start = some m2' → SimRel m1' m2' := by
  have fresh1 := increment_fresh m1.list_id m1.last_list_id hinv1.1 hinv1.2
  have fresh2 := increment_fresh m2.list_id m2.last_list_id hinv2.1 hinv2.2
  have hequiv : StampEquiv (increment_list_id m1.list_id m1.last_list_id).1
      (increment_list_id m1.list_id m1.last_list_id).2
      (increment_list_id m2.list_id m2.last_list_id).1
      (increment_list_id m2.list_id m2.last_list_id).2 :=
    stampEquiv_fresh fresh1.1 fresh2.1 (by rw [fresh1.2.2.2, fresh2.2.2.2, hlen])
  have hrel := add_state_congr m1.nfa (fuelFor m1.nfa)
    (increment_list_id m1.list_id m1.last_list_id).1
    (increment_list_id m2.list_id m2.last_list_id).1
    (increment_list_id m1.list_id m1.last_list_id).2
    (increment_list_id m2.list_id m2.last_list_id).2 [] m1.nfa.start hequiv
  have e1 := start_eq m1
  have e2 := start_eq m2
  rw [← hnfa] at e2
  rcases insRel_cases hrel with ⟨hn1, hn2⟩ | ⟨r1, r2, hs1, hs2, hnl, hse⟩
  · rw [hn1] at e1
    rw [hn2] at e2
    refine ⟨by rw [e1, e2]; exact Iff.rfl, ?_⟩
    intro m1' m2' hm1 _
    rw [e1] at hm1
    exact Option.noConfusion hm1
  · rw [hs1] at e1
    rw [hs2] at e2
    replace e1 : m1.start = some (Matcher.mk m1.nfa r1.2 m1.clist
      (increment_list_id m1.list_id m1.last_list_id).1 r1.1) := e1
    replace e2 : m2.start = some (Matcher.mk m1.nfa r2.2 m2.clist
      (increment_list_id m2.list_id m2.last_list_id).1 r2.1) := e2
    refine ⟨⟨fun hX => by rw [e1] at hX; exact Option.noConfusion hX,
      fun hX => by rw [e2] at hX; exact Option.noConfusion hX⟩, ?_⟩
    intro m1' m2' hm1 hm2
    rw [e1] at hm1
    rw [e2] at hm2
    injection hm1 with hm1
    injection hm2 with hm2
    subst hm1
    subst hm2
    have hst1 := add_state_stamps m1.nfa _ _ _ _ _ _ hs1
    have hst2 := add_state_stamps m1.nfa _ _ _ _ _ _ hs2
    refine ⟨rfl, hnl, hse.1, ⟨?_, fresh1.2.2.1⟩, ⟨?_, fresh2.2.2.1⟩⟩
    · intro i
      rcases hst1.2.1 i with h' | h'
      · rw [h']
        exact fresh1.2.1 i
      · rw [h']
    · intro i
      rcases hst2.2.1 i with h' | h'
      · rw [h']
        exact fresh2.2.1 i
      · rw [h']

/-- C7: the generation counter is exhaustion safe.  First, the increment at
the maximal u32 value resets every last-seen stamp to the sentinel 0 and
restarts the counter at its first valid value 1.  Second, the boolean match
result of any haystack is identical for any two matchers over the same
automaton whose generation state is valid (every stamp at most the counter,
counter within u32) and whose tables have equal size: in particular the
result is the same before and after the exhaustion-and-reset boundary, and no
stale stamp ever satisfies a membership check. -/
theorem c7_exhaustion_reset :
    (∀ last : List Nat,
      increment_list_id (2 ^ 32 - 1) last = (1, last.map fun _ => 0)) ∧
    ∀ (m1 m2 : Matcher) (hay : List Nat), m1.nfa = m2.nfa →
      m1.last_list_id.length = m2.last_list_id.length →
      MatcherInv m1 → MatcherInv m2 →
      (m1.is_match hay).map Prod.fst = (m2.is_match hay).map Prod.fst := by
  refine ⟨increment_max, ?_⟩
  intro m1 m2 hay hnfa hlen hinv1 hinv2
  have hst := start_simrel m1 m2 hnfa hlen hinv1 hinv2
  unfold Matcher.is_match
  rcases h1 : m1.start with _ | ma <;> rcases h2 : m2.start with _ | mb
  · rfl
  · exact absurd (hst.1.mp h1) (by rw [h2]; simp)
  · exact absurd (hst.1.mpr h2) (by rw [h1]; simp)
  · have hr := hst.2 ma mb h1 h2
    have hf := fold_haystack_simrel hay ma mb hr
    show Option.map Prod.fst
        (match hay.foldlM Matcher.stepAndSwap ma with
         | none => (none : Option (Bool × Matcher))
         | some mf =>
           some (mf.clist.any fun sid =>
             (mf.nfa.states.getD sid .Match).isMatchState, mf)) =
      Option.map Prod.fst
        (match hay.foldlM Matcher.stepAndSwap mb with
         | none => (none : Option (Bool × Matcher))
         | some mf =>
           some (mf.clist.any fun sid =>
             (mf.nfa.states.getD sid .Match).isMatchState, mf))
    rcases hf1 : hay.foldlM Matcher.stepAndSwap ma with _ | mfa <;>
      rcases hf2 : hay.foldlM Matcher.stepAndSwap mb with _ | mfb
    · first
      | rfl
      | (rw [hf1, hf2]; rfl)
    · exact absurd (hf.1.mp hf1) (by rw [hf2]; simp)
    · exact absurd (hf.1.mpr hf2) (by rw [hf1]; simp)
    · have hrf := hf.2 mfa mfb hf1 hf2
      first
      | skip
      | rw [hf1, hf2]
      show some (mfa.clist.any fun sid =>
          (mfa.nfa.states.getD sid .Match).isMatchState) =
        some (mfb.clist.any fun sid =>
          (mfb.nfa.states.getD sid .Match).isMatchState)
      rw [hrf.1, hrf.2.1]

/-- C7 witness: a fresh matcher for the a-star automaton and one whose
generation counter sits at the maximal u32 value with all stamps equal to it
(one increment away from the exhaustion reset) give the same result on the
haystack of one a byte. -/
theorem c7_witness :
    ((Matcher.new ⟨1, [.Literal 97 1, .Split 0 2, .Match]⟩).is_match [97]).map
        Prod.fst =
      ((Matcher.mk ⟨1, [.Literal 97 1, .Split 0 2, .Match]⟩ [] []
        (2 ^ 32 - 1) [2 ^ 32 - 1, 2 ^ 32 - 1, 2 ^ 32 - 1]).is_match [97]).map
        Prod.fst :=
  c7_exhaustion_reset.2 (Matcher.new ⟨1, [.Literal 97 1, .Split 0 2, .Match]⟩)
    (Matcher.mk ⟨1, [.Literal 97 1, .Split 0 2, .Match]⟩ [] []
      (2 ^ 32 - 1) [2 ^ 32 - 1, 2 ^ 32 - 1, 2 ^ 32 - 1]) [97] rfl (by decide)
    ⟨fun i => by
      rcases i with _ | _ | _ | i <;>
        simp [Matcher.new, List.getD_cons_zero, List.getD_cons_succ], by decide⟩
    ⟨fun i => by
      rcases i with _ | _ | _ | i <;>
        simp [List.getD_cons_zero, List.getD_cons_succ], by norm_num⟩

end Idiomatic

namespace Safe

/-- Adding wrap32 on the left argument of a sum reduces away: wrap32 is a
homomorphism for two's-complement addition. -/
theorem wrap32_add_left (x y : Int) : wrap32 (wrap32 x + y) = wrap32 (x + y) := by
  unfold wrap32; omega

/-- wrap32 is idempotent. -/
theorem wrap32_idem (x : Int) : wrap32 (wrap32 x) = wrap32 x := by
  unfold wrap32; omega

/-- A canonical i32 value never equals its own wrapped increment. -/
theorem wrap32_ne_incr (x : Int) : wrap32 x ≠ wrap32 (wrap32 x + 1) := by
  unfold wrap32; omega

/-- k applications of the LIST_ID increment starting from the initial 0 leave
the counter at the two's-complement representative of k. -/
theorem incr_iterate (k : Nat) : list_id_incr^[k] 0 = wrap32 k := by
  induction k with
  | zero => simp [wrap32]
  | succ k ih =>
    rw [Function.iterate_succ_apply', ih]
    unfold list_id_incr
    rw [wrap32_add_left]
    push_cast
    ring_nf

/-- Unfolding equation of add_state at a null pointer. -/
theorem add_state_nullptr (states : List State) (fuel : Nat) (id : Int)
    (stamps : List Int) (l : List Nat) :
    add_state states fuel id stamps l none = some (stamps, l) := by
  cases fuel <;> rfl

/-- Unfolding equation of add_state at a live pointer with fuel available. -/
theorem add_state_succ (states : List State) (fuel : Nat) (id : Int)
    (stamps : List Int) (l : List Nat) (sid : Nat) :
    add_state states (fuel + 1) id stamps l (some sid) =
      if stamps.getD sid 0 = id then some (stamps, l)
      else
        let stamps := stamps.set sid id
        let st := states.getD sid ⟨0, none, none⟩
        if st.c = 257 then
          match add_state states fuel id stamps l st.out with
          | none => none
          | some sl => add_state states fuel id sl.1 sl.2 st.out1
        else some (stamps, l ++ [sid]) := rfl

/-- One empty-haystack match call on the ab automaton from a canonical
counter value w and stamp table [w, 0, 0]: the call reports false, advances
the counter once and restamps only the start state. -/
theorem rmatch_ab_empty (w : Int) (hw : wrap32 w = w) :
    rmatch 0 [⟨97, some 1, none⟩, ⟨98, some 2, none⟩, ⟨256, none, none⟩]
        w [w, 0, 0] [] =
      some (false, wrap32 (w + 1), [wrap32 (w + 1), 0, 0]) := by
  have hne : ¬ (([w, 0, 0] : List Int).getD 0 0 = list_id_incr w) := by
    simp only [List.getD_cons_zero]
    unfold list_id_incr
    rw [← hw]
    exact wrap32_ne_incr w
  unfold rmatch
  simp only [List.length_cons, List.length_nil]
  rw [add_state_succ, if_neg hne]
  rfl

/-- A sequence of k empty-haystack match calls on the ab automaton starting
from canonical counter w and stamps [w, 0, 0], threading the persistent
counter and stamp table from call to call. -/
theorem fold_empty_calls (k : Nat) : ∀ w : Int, wrap32 w = w →
    (List.replicate k ([] : List Nat)).foldlM
      (fun (s : Int × List Int) h =>
        (rmatch 0 [⟨97, some 1, none⟩, ⟨98, some 2, none⟩, ⟨256, none, none⟩]
            s.1 s.2 h).map fun r => (r.2.1, r.2.2))
      (w, [w, 0, 0]) =
      some (wrap32 (w + k), [wrap32 (w + k), 0, 0]) := by
  induction k with
  | zero =>
    intro w hw
    simp only [List.replicate, List.foldlM_nil, Nat.cast_zero, add_zero, hw]
    rfl
  | succ k ih =>
    intro w hw
    rw [List.replicate_succ, List.foldlM_cons, rmatch_ab_empty w hw]
    have h1 : wrap32 (wrap32 (w + 1)) = wrap32 (w + 1) := wrap32_idem _
    have := ih (wrap32 (w + 1)) h1
    simp only [Option.map_some', Option.bind_eq_bind, Option.some_bind]
    rw [this, wrap32_add_left]
    congr 2 <;> push_cast <;> ring_nf

/-- C7: counterexample.  In the safe translation, the generation counter
LIST_ID is an AtomicI32 whose fetch_add silently wraps: at the maximal i32
value the next increment produces the minimal i32 value instead of
restarting from the first valid value 1, and no last-seen stamp is ever
reset.  Consequently match results are not preserved across the wraparound
boundary: for the pattern ab (accepted by re2post, built by post2nfa), a
fresh process matches the haystack ab (result true), but after 2 to the 32
minus 2 empty-haystack match calls the persistent counter and stamp state
reaches (-2, [-2, 0, 0]), and from there the very same match call on ab
returns false: the b state's stale initial stamp 0 equals the wrapped
current generation, so the state is skipped as already visited. -/
theorem c7_counterexample :
    list_id_incr (2 ^ 31 - 1) = -(2 ^ 31) ∧
    list_id_incr (2 ^ 31 - 1) ≠ 1 ∧
    list_id_incr^[2 ^ 32 - 1] 0 = -1 ∧
    re2post [97, 98] = some [97, 98, 46] ∧
    post2nfa [97, 98, 46] =
      .built 0 [⟨97, some 1, none⟩, ⟨98, some 2, none⟩, ⟨256, none, none⟩] ∧
    (rmatch 0 [⟨97, some 1, none⟩, ⟨98, some 2, none⟩, ⟨256, none, none⟩]
        0 [0, 0, 0] [97, 98]).map Prod.fst = some true ∧
    (List.replicate (2 ^ 32 - 2) ([] : List Nat)).foldlM
      (fun (s : Int × List Int) h =>
        (rmatch 0 [⟨97, some 1, none⟩, ⟨98, some 2, none⟩, ⟨256, none, none⟩]
            s.1 s.2 h).map fun r => (r.2.1, r.2.2))
      (0, [0, 0, 0]) = some (-2, [-2, 0, 0]) ∧
    (rmatch 0 [⟨97, some 1, none⟩, ⟨98, some 2, none⟩, ⟨256, none, none⟩]
        (-2) [-2, 0, 0] [97, 98]).map Prod.fst = some false := by
  refine ⟨by decide, by decide, (incr_iterate (2 ^ 32 - 1)).trans (by decide),
    by decide, by decide, by decide, ?_, by decide⟩
  have := fold_empty_calls (2 ^ 32 - 2) 0 (by decide)
  rw [this]
  norm_num
  decide

end Safe

end RscRegexp
